import Mathlib

/-!
Shallow embedding of the process-scheduling simulator of this repository
(`scheduling_tab.py`, method `SchedulingTab.startScheduling` and its seven
helper scheduling functions), together with proofs that settle the frozen
claims about the scheduler.

Times and bursts are Python floats in the source; they are modelled as `ℚ`.
Python dictionaries for processes and schedule entries are modelled as
structures (`Proc`, `Seg`); dictionary keys that may be absent are `Option`
fields.  Python's `while` loops are modelled with an explicit fuel
parameter returning `Option`: `none` means the loop did not finish within
the given fuel.
-/

namespace PV

/-- One entry of the computed schedule: the dict
`{'name', 'arrival', 'burst', 'start', 'finish'}` appended to `sched`. -/
structure Seg where
  name : String
  arrival : ℚ
  burst : ℚ
  start : ℚ
  finish : ℚ
deriving DecidableEq, Repr

/-- One process dict gathered from the table.  `priority`, `period`,
`deadline` model the optional dict keys used by Priority Scheduling, RMS
and EDF (`none` = key absent).  `remaining` and `segments` model the
scratch keys `p['remaining']` / `p['segments']` written by the preemptive
policies; before a preemptive run initialises them they carry the defaults
`0` / `[]`. -/
structure Proc where
  name : String
  arrival : ℚ
  burst : ℚ
  priority : Option ℚ := none
  period : Option ℚ := none
  deadline : Option ℚ := none
  remaining : ℚ := 0
  segments : List (ℚ × ℚ) := []
deriving DecidableEq, Repr

/-- Python's `min(l, key=f)`: the first element of `l` attaining the
minimal key (`none` on the empty list, where Python raises). -/
def argminKey (f : α → ℚ) : List α → Option α
  | [] => none
  | x :: xs =>
    match argminKey f xs with
    | none => some x
    | some y => if f y < f x then some y else some x

/-- Python's `max(l, key=f)`: the first element of `l` attaining the
maximal key. -/
def argmaxKey (f : α → ℚ) : List α → Option α
  | [] => none
  | x :: xs =>
    match argmaxKey f xs with
    | none => some x
    | some y => if f x < f y then some y else some x

/-- Position and value of the first element satisfying `pred` whose key is
minimal among the elements satisfying `pred`.  This models Python's
`min([p for p in plist if pred p], key=f)` together with the identity
(position in `plist`) of the chosen element, which the source needs
because it mutates the chosen dict in place. -/
def argminIdxKey (f : α → ℚ) (pred : α → Bool) : List α → Option (Nat × α)
  | [] => none
  | x :: xs =>
    match argminIdxKey f pred xs with
    | none => if pred x then some (0, x) else none
    | some (j, y) =>
      if pred x then (if f y < f x then some (j + 1, y) else some (0, x))
      else some (j + 1, y)

/-- Stable insertion of `a` into `l` by key `f`: `a` goes before the first
element whose key is not smaller. -/
def insertByKey (f : α → ℚ) (a : α) : List α → List α
  | [] => [a]
  | b :: bs => if f a ≤ f b then a :: b :: bs else b :: insertByKey f a bs

/-- Python's `sorted(l, key=f)` / `l.sort(key=f)`.  Python's sort is
stable, and all stable sorts by a total key compute the same list, so this
stable insertion sort is extensionally the same function. -/
def pySorted (f : α → ℚ) (l : List α) : List α := l.foldr (insertByKey f) []

/-- The final `sched.sort(key=lambda s: s['start'])` of the preemptive
policies, and the sort applied by the no-overlap claim. -/
def sortByStart (l : List Seg) : List Seg := pySorted (fun s => s.start) l

/-- The conservation-relevant content of a schedule entry: the echoed
process identity together with the entry's duration `finish - start`. -/
def segDur (s : Seg) : String × ℚ × ℚ × ℚ := (s.name, s.arrival, s.burst, s.finish - s.start)

/-- The conservation target for one process: its identity together with
its full burst. -/
def procDur (p : Proc) : String × ℚ × ℚ × ℚ := (p.name, p.arrival, p.burst, p.burst)

/-- `fcfs_schedule`'s body after the initial sort: one segment per process
in order, `start = max(currentTime, arrival)`, `finish = start + burst`. -/
def fcfsLoop : List Proc → ℚ → List Seg
  | [], _ => []
  | p :: rest, currentTime =>
    let start := max currentTime p.arrival
    let finish := start + p.burst
    ⟨p.name, p.arrival, p.burst, start, finish⟩ :: fcfsLoop rest finish

/-- `fcfs_schedule(plist)` from the source. -/
def fcfs_schedule (plist : List Proc) : List Seg :=
  fcfsLoop (pySorted (fun p => p.arrival) plist) 0

/-- `min(unscheduled, key=lambda p: p['arrival'])['arrival']` on the
non-empty list `p :: rest`. -/
def minArrivalTime (p : Proc) (rest : List Proc) : ℚ :=
  ((argminKey (fun q => q.arrival) (p :: rest)).getD p).arrival

/-- The head of each iteration of the shared greedy loop: compute
`available`; if it is empty, advance the clock to the earliest arrival of
the (non-empty) unscheduled list and recompute `available`.  Returns the
(possibly advanced) clock and the available list. -/
def greedyStep (p : Proc) (rest : List Proc) (currentTime : ℚ) : ℚ × List Proc :=
  let unscheduled := p :: rest
  let avail0 := unscheduled.filter (fun q => decide (q.arrival ≤ currentTime))
  if avail0 = [] then
    let ct := minArrivalTime p rest
    (ct, unscheduled.filter (fun q => decide (q.arrival ≤ ct)))
  else (currentTime, avail0)

/-- The shared greedy loop of `sjf_non_preemptive_schedule`,
`priority_schedule`, `rms_schedule` and `edf_schedule`; the four source
functions differ only in the selection rule `choose` applied to the
`available` list.  Fuel counts the remaining iterations; each iteration
removes the chosen process. -/
def greedyLoop (choose : List Proc → Option Proc) : Nat → List Proc → ℚ → Option (List Seg)
  | _, [], _ => some []
  | 0, _ :: _, _ => none
  | fuel + 1, p :: rest, currentTime =>
    let ca := greedyStep p rest currentTime
    match choose ca.2 with
    | none => none
    | some chosen =>
      let start := max ca.1 chosen.arrival
      let finish := start + chosen.burst
      (greedyLoop choose fuel ((p :: rest).erase chosen) finish).map
        (fun tail => ⟨chosen.name, chosen.arrival, chosen.burst, start, finish⟩ :: tail)

/-- `sjf_non_preemptive_schedule(plist)` from the source: greedy loop
choosing `min(available, key=lambda p: p['burst'])`. -/
def sjf_non_preemptive_schedule (plist : List Proc) : Option (List Seg) :=
  greedyLoop (argminKey (fun p => p.burst)) plist.length plist 0

/-- `priority_schedule(plist, order)` from the source: greedy loop choosing
`min(available, key=lambda p: p.get('priority', 9999))` when
`order == "Smaller Priority First"`, else
`max(available, key=lambda p: p.get('priority', -9999))`. -/
def priority_schedule (plist : List Proc) (order : String) : Option (List Seg) :=
  if order = "Smaller Priority First" then
    greedyLoop (argminKey (fun p => p.priority.getD 9999)) plist.length plist 0
  else
    greedyLoop (argmaxKey (fun p => p.priority.getD (-9999))) plist.length plist 0

/-- The pre-loop of `rms_schedule`: `if 'period' not in p: p['period'] =
p['arrival'] + p['burst']`, mutating the input dict. -/
def rmsDefault (p : Proc) : Proc :=
  if p.period = none then { p with period := some (p.arrival + p.burst) } else p

/-- `rms_schedule(plist)` from the source.  The first component is the
state of the input process list after the run (the source mutates the
input dicts by inserting missing `'period'` keys); the second is the
computed schedule. -/
def rms_schedule (plist : List Proc) : List Proc × Option (List Seg) :=
  let plist2 := plist.map rmsDefault
  (plist2, greedyLoop (argminKey (fun p => p.period.getD 0)) plist2.length plist2 0)

/-- The pre-loop of `edf_schedule`: missing `'deadline'` keys default to
`arrival + burst`, mutating the input dict. -/
def edfDefault (p : Proc) : Proc :=
  if p.deadline = none then { p with deadline := some (p.arrival + p.burst) } else p

/-- `edf_schedule(plist)` from the source: deadlines defaulted, candidates
pre-sorted by deadline, then the greedy loop chooses
`min(available, key=lambda p: p['deadline'])`.  The first component is the
post-run state of the input list (deadline keys inserted). -/
def edf_schedule (plist : List Proc) : List Proc × Option (List Seg) :=
  let plist2 := plist.map edfDefault
  let plistSorted := pySorted (fun p => p.deadline.getD 0) plist2
  (plist2, greedyLoop (argminKey (fun p => p.deadline.getD 0)) plistSorted.length plistSorted 0)

/-- `p['segments'][-1]['end']`. -/
def lastEnd? (segs : List (ℚ × ℚ)) : Option ℚ := segs.getLast?.map Prod.snd

/-- `p['segments'][-1]['end'] = e`. -/
def setLastEnd (segs : List (ℚ × ℚ)) (e : ℚ) : List (ℚ × ℚ) :=
  match segs.getLast? with
  | none => segs
  | some s => segs.dropLast ++ [(s.1, e)]

/-- The specification-level fields of a process record: everything except
the `remaining`/`segments` scratch state of the preemptive policies. -/
def specOf (p : Proc) : String × ℚ × ℚ × Option ℚ × Option ℚ × Option ℚ :=
  (p.name, p.arrival, p.burst, p.priority, p.period, p.deadline)

/-- Total duration covered by a process's segment list. -/
def segSum (segs : List (ℚ × ℚ)) : ℚ := (segs.map (fun s => s.2 - s.1)).sum

/-- All raw `(start, end)` segments accumulated across a process list. -/
def allSegs (pl : List Proc) : List (ℚ × ℚ) := (pl.map Proc.segments).flatten

/-- Two raw segments do not overlap in time. -/
def DisjPair (a b : ℚ × ℚ) : Prop := a.2 ≤ b.1 ∨ b.2 ≤ a.1

/-- The body of one execution step of `sjf_preemptive_schedule` on the
chosen process: decrement `remaining`, then coalesce the new unit into the
last segment when the last segment exists, the same name ran the previous
unit, and that segment's end equals the unit's start; otherwise append a
new segment. -/
def srtfExec (cur : Proc) (last : Option String) (segStart segFinish : ℚ) : Proc :=
  let cur2 := { cur with remaining := cur.remaining - 1 }
  if cur2.segments ≠ [] ∧ last = some cur2.name ∧ lastEnd? cur2.segments = some segStart then
    { cur2 with segments := setLastEnd cur2.segments segFinish }
  else
    { cur2 with segments := cur2.segments ++ [(segStart, segFinish)] }

/-- The `while any(p['remaining'] > 0 ...)` loop of
`sjf_preemptive_schedule`.  `last` models the `last_proc` variable (a
process name or `None`). -/
def srtfLoop : Nat → List Proc → ℚ → Option String → Option (List Proc)
  | fuel, plist, time, last =>
    if plist.any (fun p => decide (0 < p.remaining)) then
      match fuel with
      | 0 => none
      | fuel2 + 1 =>
        match argminIdxKey (fun p => p.remaining)
            (fun p => decide (p.arrival ≤ time) && decide (0 < p.remaining)) plist with
        | some (i, cur) =>
          srtfLoop fuel2 (plist.set i (srtfExec cur last time (time + 1))) (time + 1) (some cur.name)
        | none =>
          match argminKey (fun p => p.arrival)
              (plist.filter (fun p => decide (time < p.arrival) && decide (0 < p.remaining))) with
          | some q => srtfLoop fuel2 plist q.arrival last
          | none => some plist
    else some plist

/-- The segments of one process, flattened into schedule entries echoing
name, arrival and burst. -/
def procSegsOut (p : Proc) : List Seg :=
  p.segments.map (fun s => ⟨p.name, p.arrival, p.burst, s.1, s.2⟩)

/-- The nested flattening loop shared by `sjf_preemptive_schedule` and
`round_robin_schedule` (before the final sort by start). -/
def flattenSegs (plist : List Proc) : List Seg :=
  (plist.map procSegsOut).flatten

/-- `sjf_preemptive_schedule(plist)` from the source.  The first component
of the result is the post-run state of the input list (the source writes
`remaining` and `segments` into the input dicts); the second is the
flattened schedule sorted by start. -/
def sjf_preemptive_schedule (fuel : Nat) (plist : List Proc) : Option (List Proc × List Seg) :=
  let pl := plist.map (fun p => { p with remaining := p.burst, segments := [] })
  (srtfLoop fuel pl 0 none).map (fun post => (post, sortByStart (flattenSegs post)))

/-- Modelled from the spec's §4.3 description of SJF-preemptive, for
comparison with the source's `srtfLoop`: the identical unit-stepping loop,
except that the coalescing rule reads "the last segment's end equals the
unit's start **and the same process ran the previous unit**", with "same
process" tracked by the position of the process in the list (its
identity), where the source compares process names. -/
def srtfSpecLoop : Nat → List Proc → ℚ → Option Nat → Option (List Proc)
  | fuel, plist, time, last =>
    if plist.any (fun p => decide (0 < p.remaining)) then
      match fuel with
      | 0 => none
      | fuel2 + 1 =>
        match argminIdxKey (fun p => p.remaining)
            (fun p => decide (p.arrival ≤ time) && decide (0 < p.remaining)) plist with
        | some (i, cur) =>
          let cur2 := { cur with remaining := cur.remaining - 1 }
          let cur3 :=
            if cur2.segments ≠ [] ∧ lastEnd? cur2.segments = some time ∧ last = some i then
              { cur2 with segments := setLastEnd cur2.segments (time + 1) }
            else
              { cur2 with segments := cur2.segments ++ [(time, time + 1)] }
          srtfSpecLoop fuel2 (plist.set i cur3) (time + 1) (some i)
        | none =>
          match argminKey (fun p => p.arrival)
              (plist.filter (fun p => decide (time < p.arrival) && decide (0 < p.remaining))) with
          | some q => srtfSpecLoop fuel2 plist q.arrival last
          | none => some plist
    else some plist

/-- The claim-level SJF-preemptive schedule built on `srtfSpecLoop`,
wrapped exactly as `sjf_preemptive_schedule` wraps `srtfLoop`. -/
def srtf_spec_schedule (fuel : Nat) (plist : List Proc) : Option (List Proc × List Seg) :=
  let pl := plist.map (fun p => { p with remaining := p.burst, segments := [] })
  (srtfSpecLoop fuel pl 0 none).map (fun post => (post, sortByStart (flattenSegs post)))

/-- Every accumulated segment across `pl` ends no later than `t`. -/
def SegsEndLE (pl : List Proc) (t : ℚ) : Prop :=
  ∀ p ∈ pl, ∀ sg ∈ p.segments, sg.2 ≤ t

/-- Coupling between the source's name-based `last_proc` tracking and the
identity-based tracking of the spec model: whenever some process's last
segment ends exactly at the current clock, both trackers point at it. -/
def LastConsistent (pl : List Proc) (t : ℚ) (lastN : Option String) (lastI : Option Nat) : Prop :=
  ∀ i cur, pl[i]? = some cur → lastEnd? cur.segments = some t →
    lastN = some cur.name ∧ lastI = some i

/-- One pass of `round_robin_schedule`'s inner `for p in plist_sorted`
scan: every process with `arrival ≤ time` (at the moment the scan reaches
it) and `remaining > 0` executes `min(quantum, remaining)` as one segment.
Returns the updated processes, the advanced clock, and whether anything
executed in the pass. -/
def rrPass (quantum : ℚ) : List Proc → ℚ → List Proc × ℚ × Bool
  | [], time => ([], time, false)
  | p :: rest, time =>
    if p.arrival ≤ time ∧ 0 < p.remaining then
      let execTime := min quantum p.remaining
      let p2 := { p with remaining := p.remaining - execTime,
                         segments := p.segments ++ [(time, time + execTime)] }
      let r := rrPass quantum rest (time + execTime)
      (p2 :: r.1, r.2.1, true)
    else
      let r := rrPass quantum rest time
      (p :: r.1, r.2.1, r.2.2)

/-- The `while any(p['remaining'] > 0 ...)` loop of
`round_robin_schedule`: run a pass; if nothing executed, jump to the next
arrival among unfinished processes, or break. -/
def rrLoop (quantum : ℚ) : Nat → List Proc → ℚ → Option (List Proc)
  | fuel, plist, time =>
    if plist.any (fun p => decide (0 < p.remaining)) then
      match fuel with
      | 0 => none
      | fuel2 + 1 =>
        let r := rrPass quantum plist time
        if r.2.2 then rrLoop quantum fuel2 r.1 r.2.1
        else
          match argminKey (fun p => p.arrival)
              (r.1.filter (fun p => decide (r.2.1 < p.arrival) && decide (0 < p.remaining))) with
          | some q => rrLoop quantum fuel2 r.1 q.arrival
          | none => some r.1
    else some plist

/-- `round_robin_schedule(plist, quantum)` from the source.  The first
component of the result is the post-run state of the (arrival-sorted)
process list; the second is the flattened schedule sorted by start. -/
def round_robin_schedule (fuel : Nat) (plist : List Proc) (quantum : ℚ) : Option (List Proc × List Seg) :=
  let ps := (pySorted (fun p => p.arrival) plist).map (fun p => { p with remaining := p.burst, segments := [] })
  (rrLoop quantum fuel ps 0).map (fun post => (post, sortByStart (flattenSegs post)))

/-- One row of the input table as `startScheduling` reads it.  `none`
models an absent cell (`self.processTable.item(...)` returning `None`);
for the fourth column, `some none` models a cell whose text does not parse
as a float (the `except` branch). -/
structure RawRow where
  name : Option String
  arrival : Option ℚ
  burst : Option ℚ
  extra : Option (Option ℚ)
deriving DecidableEq, Repr

/-- The table has a fourth column exactly for these three algorithms
(`updateProcessInputForm`). -/
def hasExtraColumn (alg : String) : Bool :=
  alg = "Priority Scheduling" || alg = "RMS" || alg = "EDF"

/-- The row-gathering loop body of `startScheduling`: defaults for absent
name/arrival/burst cells, and the fourth-column value defaulting to
`arrival + burst` when the cell is absent or unparseable. -/
def buildProcess (alg : String) (r : Nat) (row : RawRow) : Proc :=
  let nm := row.name.getD ("p" ++ toString (r + 1))
  let arrival := row.arrival.getD 0
  let burst := row.burst.getD 0
  let base : Proc := { name := nm, arrival := arrival, burst := burst }
  if hasExtraColumn alg then
    let value :=
      match row.extra with
      | some (some v) => v
      | some none => arrival + burst
      | none => arrival + burst
    if alg = "Priority Scheduling" then { base with priority := some value }
    else if alg = "RMS" then { base with period := some value }
    else if alg = "EDF" then { base with deadline := some value }
    else base
  else base

/-- The `processList` built by `startScheduling` from the table rows. -/
def buildProcessList (alg : String) (rows : List RawRow) : List Proc :=
  rows.enum.map (fun rrow => buildProcess alg rrow.1 rrow.2)

/-- The Round-Robin quantum normalization in `startScheduling`:
`float(text)` failing (absent/non-numeric text, modelled as `none`) or a
value `≤ 0` yields `1.0`. -/
def normalizeQuantum (cell : Option ℚ) : ℚ :=
  match cell with
  | some q => if q ≤ 0 then 1 else q
  | none => 1

/-- The no-overlap property claimed of a schedule: after sorting by start,
each segment finishes no later than the next one starts. -/
def Chrono (l : List Seg) : Prop := l.Chain' (fun s t => s.finish ≤ t.start)

/-- Two schedule entries do not overlap in time. -/
def Disj (s t : Seg) : Prop := s.finish ≤ t.start ∨ t.finish ≤ s.start

/-- The fourth-column value actually consulted by the scheduler selected
by `alg` (priority, period or deadline). -/
def extraField (alg : String) (p : Proc) : Option ℚ :=
  if alg = "Priority Scheduling" then p.priority
  else if alg = "RMS" then p.period
  else p.deadline

/-- The dispatch of `startScheduling`: gather the process list, then pick
a scheduler by the algorithm selector string; any unrecognized selector
falls through to the final `else` branch. -/
def startScheduling (fuel : Nat) (alg : String) (rows : List RawRow)
    (quantumCell : Option ℚ) (priorityOrderText : String) : Option (List Seg) :=
  let processList := buildProcessList alg rows
  if alg = "FCFS" then some (fcfs_schedule processList)
  else if alg = "SJF (Non Preemptive)" then sjf_non_preemptive_schedule processList
  else if alg = "SJF (Preemptive)" then (sjf_preemptive_schedule fuel processList).map Prod.snd
  else if alg = "Priority Scheduling" then
    let order := if priorityOrderText = "Greater Priority First" ∨ priorityOrderText = "Smaller Priority First"
                 then priorityOrderText else "Smaller Priority First"
    priority_schedule processList order
  else if alg = "RMS" then (rms_schedule processList).2
  else if alg = "EDF" then (edf_schedule processList).2
  else if alg = "Round Robin" then
    (round_robin_schedule fuel processList (normalizeQuantum quantumCell)).map Prod.snd
  else some (fcfs_schedule processList)

end PV
namespace PV

section BasicLemmas

variable {α : Type _}

theorem argminKey_eq_none {f : α → ℚ} : ∀ {l : List α}, argminKey f l = none ↔ l = [] := by
  intro l
  cases l with
  | nil => simp [argminKey]
  | cons a as =>
    simp only [argminKey]
    cases hr : argminKey f as with
    | none => simp
    | some y => by_cases hc : f y < f a <;> simp [hc]

theorem argminKey_mem {f : α → ℚ} : ∀ {l : List α} {x : α}, argminKey f l = some x → x ∈ l := by
  intro l
  induction l with
  | nil => intro x h; simp [argminKey] at h
  | cons a as ih =>
    intro x h
    simp only [argminKey] at h
    cases hr : argminKey f as with
    | none => rw [hr] at h; simp_all
    | some y =>
      rw [hr] at h
      by_cases hc : f y < f a
      · simp [hc] at h; subst h; exact List.mem_cons_of_mem _ (ih hr)
      · simp [hc] at h; subst h; exact List.mem_cons_self _ _

theorem argminKey_isSome {f : α → ℚ} {l : List α} (hl : l ≠ []) : (argminKey f l).isSome := by
  cases hr : argminKey f l with
  | none => exact absurd (argminKey_eq_none.1 hr) hl
  | some y => rfl

theorem argminKey_le {f : α → ℚ} : ∀ {l : List α} {x : α}, argminKey f l = some x →
    ∀ y ∈ l, f x ≤ f y := by
  intro l
  induction l with
  | nil => intro x h; simp [argminKey] at h
  | cons a as ih =>
    intro x h y hy
    simp only [argminKey] at h
    cases hr : argminKey f as with
    | none =>
      rw [hr] at h; simp at h; subst h
      have : as = [] := argminKey_eq_none.1 hr
      subst this
      simp at hy; subst hy; exact le_refl _
    | some z =>
      rw [hr] at h
      by_cases hc : f z < f a
      · simp [hc] at h; subst h
        rcases List.mem_cons.1 hy with rfl | hy'
        · exact le_of_lt hc
        · exact ih hr y hy'
      · simp [hc] at h; subst h
        rcases List.mem_cons.1 hy with rfl | hy'
        · exact le_refl _
        · exact le_trans (not_lt.1 hc) (ih hr y hy')

theorem argmaxKey_eq_none {f : α → ℚ} : ∀ {l : List α}, argmaxKey f l = none ↔ l = [] := by
  intro l
  cases l with
  | nil => simp [argmaxKey]
  | cons a as =>
    simp only [argmaxKey]
    cases hr : argmaxKey f as with
    | none => simp
    | some y => by_cases hc : f a < f y <;> simp [hc]

theorem argmaxKey_mem {f : α → ℚ} : ∀ {l : List α} {x : α}, argmaxKey f l = some x → x ∈ l := by
  intro l
  induction l with
  | nil => intro x h; simp [argmaxKey] at h
  | cons a as ih =>
    intro x h
    simp only [argmaxKey] at h
    cases hr : argmaxKey f as with
    | none => rw [hr] at h; simp_all
    | some y =>
      rw [hr] at h
      by_cases hc : f a < f y
      · simp [hc] at h; subst h; exact List.mem_cons_of_mem _ (ih hr)
      · simp [hc] at h; subst h; exact List.mem_cons_self _ _

theorem argmaxKey_isSome {f : α → ℚ} {l : List α} (hl : l ≠ []) : (argmaxKey f l).isSome := by
  cases hr : argmaxKey f l with
  | none => exact absurd (argmaxKey_eq_none.1 hr) hl
  | some y => rfl

end BasicLemmas

end PV
namespace PV

section SortLemmas

variable {α : Type _}

theorem mem_insertByKey {f : α → ℚ} {a x : α} : ∀ {l : List α},
    x ∈ insertByKey f a l ↔ x = a ∨ x ∈ l := by
  intro l
  induction l with
  | nil => simp [insertByKey]
  | cons b bs ih =>
    simp only [insertByKey]
    by_cases hc : f a ≤ f b
    · simp [hc]
    · simp only [hc, if_false, List.mem_cons, ih]
      tauto

theorem insertByKey_perm {f : α → ℚ} (a : α) : ∀ (l : List α),
    (insertByKey f a l).Perm (a :: l) := by
  intro l
  induction l with
  | nil => simp [insertByKey]
  | cons b bs ih =>
    simp only [insertByKey]
    by_cases hc : f a ≤ f b
    · simp [hc]
    · simp only [hc, if_false]
      exact (ih.cons b).trans (List.Perm.swap a b bs)

theorem pairwise_insertByKey {f : α → ℚ} {a : α} : ∀ {l : List α},
    l.Pairwise (fun x y => f x ≤ f y) →
    (insertByKey f a l).Pairwise (fun x y => f x ≤ f y) := by
  intro l
  induction l with
  | nil => intro _; simp [insertByKey]
  | cons b bs ih =>
    intro h
    rw [List.pairwise_cons] at h
    obtain ⟨hb, hbs⟩ := h
    simp only [insertByKey]
    by_cases hc : f a ≤ f b
    · rw [if_pos hc]
      refine List.Pairwise.cons ?_ (List.Pairwise.cons hb hbs)
      intro y hy
      rcases List.mem_cons.1 hy with rfl | hy'
      · exact hc
      · exact le_trans hc (hb y hy')
    · rw [if_neg hc]
      refine List.Pairwise.cons ?_ (ih hbs)
      intro y hy
      rcases (mem_insertByKey (f := f)).1 hy with rfl | hy'
      · exact le_of_lt (not_le.1 hc)
      · exact hb y hy'

theorem pySorted_perm (f : α → ℚ) : ∀ (l : List α), (pySorted f l).Perm l := by
  intro l
  induction l with
  | nil => simp [pySorted]
  | cons a as ih =>
    have : pySorted f (a :: as) = insertByKey f a (pySorted f as) := rfl
    rw [this]
    exact (insertByKey_perm a (pySorted f as)).trans (ih.cons a)

theorem pySorted_pairwise (f : α → ℚ) : ∀ (l : List α),
    (pySorted f l).Pairwise (fun x y => f x ≤ f y) := by
  intro l
  induction l with
  | nil => simp [pySorted]
  | cons a as ih =>
    have : pySorted f (a :: as) = insertByKey f a (pySorted f as) := rfl
    rw [this]
    exact pairwise_insertByKey ih

theorem pySorted_eq_self {f : α → ℚ} : ∀ {l : List α},
    l.Chain' (fun x y => f x ≤ f y) → pySorted f l = l := by
  intro l
  induction l with
  | nil => intro _; rfl
  | cons a as ih =>
    intro h
    have h2 : pySorted f (a :: as) = insertByKey f a (pySorted f as) := rfl
    rw [h2, ih h.tail]
    cases as with
    | nil => rfl
    | cons b bs =>
      have hab : f a ≤ f b := List.chain'_cons.1 h |>.1
      simp [insertByKey, hab]

end SortLemmas

theorem Disj.symm {s t : Seg} (h : Disj s t) : Disj t s := Or.symm h

section ChronoLemmas

theorem chrono_sortByStart_of_pairwise {l : List Seg}
    (hlen : ∀ s ∈ l, s.start < s.finish) (hd : l.Pairwise Disj) :
    Chrono (sortByStart l) := by
  have hperm : (sortByStart l).Perm l := pySorted_perm _ l
  have hd2 : (sortByStart l).Pairwise Disj :=
    hd.perm hperm.symm (fun h => h.symm)
  have hs : (sortByStart l).Pairwise (fun s t => s.start ≤ t.start) :=
    pySorted_pairwise _ l
  have hcomb : (sortByStart l).Pairwise (fun s t => Disj s t ∧ s.start ≤ t.start) :=
    hd2.and hs
  have hfin : (sortByStart l).Pairwise (fun s t => s.finish ≤ t.start) := by
    refine hcomb.imp_of_mem ?_
    intro s t hsm htm hst
    rcases hst.1 with h | h
    · exact h
    · exfalso
      have hts : t.start < t.finish := hlen t (hperm.mem_iff.1 htm)
      exact absurd (lt_of_lt_of_le (lt_of_lt_of_le hts h) hst.2) (lt_irrefl _)
  exact hfin.chain'

theorem chain'_start_of_chrono {l : List Seg}
    (hw : ∀ s ∈ l, s.start ≤ s.finish) (hc : Chrono l) :
    l.Chain' (fun s t => s.start ≤ t.start) := by
  induction l with
  | nil => simp
  | cons a as ih =>
    cases as with
    | nil => simp
    | cons b bs =>
      unfold Chrono at hc
      rw [List.chain'_cons] at hc ⊢
      refine ⟨le_trans (hw a (by simp)) hc.1, ?_⟩
      exact ih (fun s hs => hw s (List.mem_cons_of_mem _ hs)) hc.2

theorem sortByStart_eq_self {l : List Seg}
    (hw : ∀ s ∈ l, s.start ≤ s.finish) (hc : Chrono l) : sortByStart l = l :=
  pySorted_eq_self (chain'_start_of_chrono hw hc)

theorem chrono_sortByStart_of_chrono {l : List Seg}
    (hw : ∀ s ∈ l, s.start ≤ s.finish) (hc : Chrono l) : Chrono (sortByStart l) := by
  rw [sortByStart_eq_self hw hc]; exact hc

end ChronoLemmas

end PV
namespace PV

section GreedyLemmas

theorem greedyStep_time_le (p : Proc) (rest : List Proc) (t : ℚ) :
    t ≤ (greedyStep p rest t).1 := by
  simp only [greedyStep]
  by_cases h : (p :: rest).filter (fun q => decide (q.arrival ≤ t)) = []
  · rw [if_pos h]
    dsimp only
    have hsome := argminKey_isSome (f := fun q : Proc => q.arrival) (l := p :: rest) (by simp)
    obtain ⟨q, hq⟩ := Option.isSome_iff_exists.1 hsome
    have hmem : q ∈ p :: rest := argminKey_mem hq
    have : ¬ (q.arrival ≤ t) := by
      intro hle
      have : q ∈ (p :: rest).filter (fun q => decide (q.arrival ≤ t)) := by
        rw [List.mem_filter]; exact ⟨hmem, by simpa using hle⟩
      rw [h] at this; simp at this
    have ht : t < q.arrival := lt_of_not_le this
    simp only [minArrivalTime, hq, Option.getD_some]
    exact le_of_lt ht
  · rw [if_neg h]

theorem greedyStep_subset (p : Proc) (rest : List Proc) (t : ℚ) :
    (greedyStep p rest t).2 ⊆ p :: rest := by
  simp only [greedyStep]
  by_cases h : (p :: rest).filter (fun q => decide (q.arrival ≤ t)) = []
  · rw [if_pos h]
    dsimp only
    exact fun x hx => List.mem_of_mem_filter hx
  · rw [if_neg h]
    dsimp only
    exact fun x hx => List.mem_of_mem_filter hx

theorem greedyStep_ne_nil (p : Proc) (rest : List Proc) (t : ℚ) :
    (greedyStep p rest t).2 ≠ [] := by
  simp only [greedyStep]
  by_cases h : (p :: rest).filter (fun q => decide (q.arrival ≤ t)) = []
  · rw [if_pos h]
    dsimp only
    have hsome := argminKey_isSome (f := fun q : Proc => q.arrival) (l := p :: rest) (by simp)
    obtain ⟨q, hq⟩ := Option.isSome_iff_exists.1 hsome
    have hmem : q ∈ p :: rest := argminKey_mem hq
    intro hnil
    have : q ∈ (p :: rest).filter
        (fun x => decide (x.arrival ≤ minArrivalTime p rest)) := by
      rw [List.mem_filter]
      refine ⟨hmem, ?_⟩
      simp only [minArrivalTime, hq, Option.getD_some]
      simp
    rw [hnil] at this; simp at this
  · rw [if_neg h]
    exact h

theorem greedyLoop_chrono {choose : List Proc → Option Proc}
    (hgood : ∀ l x, choose l = some x → x ∈ l) :
    ∀ (fuel : Nat) (uns : List Proc) (t : ℚ) (sched : List Seg),
      (∀ p ∈ uns, 0 ≤ p.burst) →
      greedyLoop choose fuel uns t = some sched →
      (∀ s ∈ sched, t ≤ s.start ∧ s.start ≤ s.finish) ∧ Chrono sched := by
  intro fuel
  induction fuel with
  | zero =>
    intro uns t sched hb h
    cases uns with
    | nil =>
      simp only [greedyLoop, Option.some.injEq] at h
      subst h
      exact ⟨by simp, by simp [Chrono]⟩
    | cons p rest => simp [greedyLoop] at h
  | succ n ih =>
    intro uns t sched hb h
    cases uns with
    | nil =>
      simp only [greedyLoop, Option.some.injEq] at h
      subst h
      exact ⟨by simp, by simp [Chrono]⟩
    | cons p rest =>
      rw [greedyLoop] at h
      cases hch : choose (greedyStep p rest t).2 with
      | none => rw [hch] at h; simp at h
      | some chosen =>
        rw [hch] at h
        simp only [Option.map_eq_some'] at h
        obtain ⟨tail, htail, hsched⟩ := h
        have hmem : chosen ∈ p :: rest := greedyStep_subset p rest t (hgood _ _ hch)
        have hbpos : 0 ≤ chosen.burst := hb chosen hmem
        have hberase : ∀ q ∈ (p :: rest).erase chosen, 0 ≤ q.burst :=
          fun q hq => hb q (List.erase_subset _ _ hq)
        obtain ⟨ihmem, ihchain⟩ := ih ((p :: rest).erase chosen)
          (max (greedyStep p rest t).1 chosen.arrival + chosen.burst) tail hberase htail
        subst hsched
        constructor
        · intro s hs
          rcases List.mem_cons.1 hs with rfl | hs'
          · refine ⟨le_trans (greedyStep_time_le p rest t) (le_max_left _ _), ?_⟩
            simpa using hbpos
          · have := ihmem s hs'
            refine ⟨?_, this.2⟩
            calc t ≤ (greedyStep p rest t).1 := greedyStep_time_le p rest t
              _ ≤ max (greedyStep p rest t).1 chosen.arrival := le_max_left _ _
              _ ≤ max (greedyStep p rest t).1 chosen.arrival + chosen.burst := by
                  simpa using hbpos
              _ ≤ s.start := this.1
        · unfold Chrono
          rw [List.chain'_cons']
          constructor
          · intro b hb2
            have hbmem : b ∈ tail := List.mem_of_mem_head? hb2
            exact (ihmem b hbmem).1
          · exact ihchain

theorem greedyLoop_perm {choose : List Proc → Option Proc}
    (hgood : ∀ l x, choose l = some x → x ∈ l) :
    ∀ (fuel : Nat) (uns : List Proc) (t : ℚ) (sched : List Seg),
      greedyLoop choose fuel uns t = some sched →
      (sched.map segDur).Perm (uns.map procDur) := by
  intro fuel
  induction fuel with
  | zero =>
    intro uns t sched h
    cases uns with
    | nil => simp only [greedyLoop, Option.some.injEq] at h; subst h; simp
    | cons p rest => simp [greedyLoop] at h
  | succ n ih =>
    intro uns t sched h
    cases uns with
    | nil => simp only [greedyLoop, Option.some.injEq] at h; subst h; simp
    | cons p rest =>
      rw [greedyLoop] at h
      cases hch : choose (greedyStep p rest t).2 with
      | none => rw [hch] at h; simp at h
      | some chosen =>
        rw [hch] at h
        simp only [Option.map_eq_some'] at h
        obtain ⟨tail, htail, hsched⟩ := h
        have hmem : chosen ∈ p :: rest := greedyStep_subset p rest t (hgood _ _ hch)
        have hperm1 : ((p :: rest).map procDur).Perm
            (procDur chosen :: ((p :: rest).erase chosen).map procDur) := by
          have := List.perm_cons_erase hmem
          exact this.map procDur
        subst hsched
        have hkey : segDur ⟨chosen.name, chosen.arrival, chosen.burst,
            max (greedyStep p rest t).1 chosen.arrival,
            max (greedyStep p rest t).1 chosen.arrival + chosen.burst⟩ = procDur chosen := by
          simp [segDur, procDur]
        rw [List.map_cons, hkey]
        exact ((ih _ _ _ htail).cons (procDur chosen)).trans hperm1.symm

theorem greedyLoop_isSome {choose : List Proc → Option Proc}
    (hgood : ∀ l x, choose l = some x → x ∈ l)
    (hsome : ∀ l, l ≠ [] → (choose l).isSome) :
    ∀ (fuel : Nat) (uns : List Proc) (t : ℚ),
      uns.length ≤ fuel → (greedyLoop choose fuel uns t).isSome := by
  intro fuel
  induction fuel with
  | zero =>
    intro uns t hlen
    cases uns with
    | nil => simp [greedyLoop]
    | cons p rest => simp at hlen
  | succ n ih =>
    intro uns t hlen
    cases uns with
    | nil => simp [greedyLoop]
    | cons p rest =>
      rw [greedyLoop]
      obtain ⟨chosen, hch⟩ := Option.isSome_iff_exists.1
        (hsome _ (greedyStep_ne_nil p rest t))
      rw [hch]
      dsimp only
      have hmem : chosen ∈ p :: rest := greedyStep_subset p rest t (hgood _ _ hch)
      have hlen2 : ((p :: rest).erase chosen).length ≤ n := by
        rw [List.length_erase_of_mem hmem]
        simpa using Nat.le_of_succ_le_succ hlen
      have := ih ((p :: rest).erase chosen)
        (max (greedyStep p rest t).1 chosen.arrival + chosen.burst) hlen2
      obtain ⟨tail, htail⟩ := Option.isSome_iff_exists.1 this
      rw [htail]
      simp

end GreedyLemmas

section FcfsLemmas

theorem fcfsLoop_props : ∀ (l : List Proc) (t : ℚ), (∀ p ∈ l, 0 ≤ p.burst) →
    (∀ s ∈ fcfsLoop l t, t ≤ s.start ∧ s.start ≤ s.finish) ∧ Chrono (fcfsLoop l t) := by
  intro l
  induction l with
  | nil => intro t _; exact ⟨by simp [fcfsLoop], by simp [fcfsLoop, Chrono]⟩
  | cons p rest ih =>
    intro t hb
    have hbp : 0 ≤ p.burst := hb p (by simp)
    have hbr : ∀ q ∈ rest, 0 ≤ q.burst := fun q hq => hb q (List.mem_cons_of_mem _ hq)
    obtain ⟨ihmem, ihchain⟩ := ih (max t p.arrival + p.burst) hbr
    constructor
    · intro s hs
      simp only [fcfsLoop] at hs
      rcases List.mem_cons.1 hs with rfl | hs'
      · exact ⟨le_max_left _ _, by simpa using hbp⟩
      · have := ihmem s hs'
        refine ⟨?_, this.2⟩
        calc t ≤ max t p.arrival := le_max_left _ _
          _ ≤ max t p.arrival + p.burst := by simpa using hbp
          _ ≤ s.start := this.1
    · simp only [fcfsLoop]
      unfold Chrono
      rw [List.chain'_cons']
      refine ⟨?_, ihchain⟩
      intro b hb2
      exact (ihmem b (List.mem_of_mem_head? hb2)).1

theorem fcfsLoop_map_dur : ∀ (l : List Proc) (t : ℚ),
    (fcfsLoop l t).map segDur = l.map procDur := by
  intro l
  induction l with
  | nil => intro t; simp [fcfsLoop]
  | cons p rest ih =>
    intro t
    simp only [fcfsLoop, List.map_cons, ih]
    congr 1
    simp [segDur, procDur]

end FcfsLemmas

end PV
namespace PV

section IdxLemmas

variable {α : Type _}

theorem argminIdxKey_eq_none {f : α → ℚ} {pred : α → Bool} : ∀ {l : List α},
    argminIdxKey f pred l = none ↔ ∀ x ∈ l, pred x = false := by
  intro l
  induction l with
  | nil => simp [argminIdxKey]
  | cons a as ih =>
    simp only [argminIdxKey]
    cases hr : argminIdxKey f pred as with
    | none =>
      rw [hr] at ih
      by_cases hp : pred a
      · simp [hp]
      · simp only [if_neg hp]
        simp only [Bool.not_eq_true] at hp
        constructor
        · intro _ x hx
          rcases List.mem_cons.1 hx with rfl | hx2
          · exact hp
          · exact ih.1 rfl x hx2
        · intro _; trivial
    | some jy =>
      obtain ⟨j, y⟩ := jy
      constructor
      · intro h
        exfalso
        by_cases hp : pred a <;> by_cases hc : f y < f a <;> simp [hp, hc] at h
      · intro h
        exfalso
        have hnone : argminIdxKey f pred as = none := by
          rw [ih]
          intro x hx
          exact h x (List.mem_cons_of_mem _ hx)
        rw [hnone] at hr
        exact Option.noConfusion hr

theorem argminIdxKey_some {f : α → ℚ} {pred : α → Bool} : ∀ {l : List α} {i : Nat} {x : α},
    argminIdxKey f pred l = some (i, x) → l[i]? = some x ∧ pred x = true := by
  intro l
  induction l with
  | nil => intro i x h; simp [argminIdxKey] at h
  | cons a as ih =>
    intro i x h
    simp only [argminIdxKey] at h
    cases hr : argminIdxKey f pred as with
    | none =>
      rw [hr] at h
      by_cases hp : pred a
      · rw [if_pos hp] at h
        simp at h
        obtain ⟨hi, hx⟩ := h
        subst hi; subst hx
        simp [hp]
      · rw [if_neg hp] at h
        exact Option.noConfusion h
    | some jy =>
      obtain ⟨j, y⟩ := jy
      rw [hr] at h
      dsimp only at h
      have hjy := ih hr
      by_cases hp : pred a
      · rw [if_pos hp] at h
        by_cases hc : f y < f a
        · rw [if_pos hc] at h
          simp at h
          obtain ⟨hi, hx⟩ := h
          subst hx
          cases i with
          | zero => simp at hi
          | succ k =>
            have : j = k := by omega
            subst this
            simpa using hjy
        · rw [if_neg hc] at h
          simp at h
          obtain ⟨hi, hx⟩ := h
          subst hi; subst hx
          simp [hp]
      · rw [if_neg hp] at h
        simp at h
        obtain ⟨hi, hx⟩ := h
        subst hx
        cases i with
        | zero => simp at hi
        | succ k =>
          have : j = k := by omega
          subst this
          simpa using hjy

theorem decomp_of_getElem? : ∀ {l : List α} {i : Nat} {c : α}, l[i]? = some c →
    ∃ l1 l2, l = l1 ++ c :: l2 ∧ l1.length = i ∧ ∀ x : α, l.set i x = l1 ++ x :: l2 := by
  intro l
  induction l with
  | nil => intro i c h; simp at h
  | cons a as ih =>
    intro i c h
    cases i with
    | zero =>
      simp at h
      subst h
      exact ⟨[], as, by simp, rfl, fun x => by simp⟩
    | succ k =>
      simp only [List.getElem?_cons_succ] at h
      obtain ⟨l1, l2, heq, hlen, hset⟩ := ih h
      refine ⟨a :: l1, l2, by simp [heq], by simp [hlen], fun x => ?_⟩
      simp [List.set_cons_succ, hset x]

theorem set_eq_of_getElem? : ∀ {l : List α} {i : Nat} {c : α}, l[i]? = some c →
    l.set i c = l := by
  intro l
  induction l with
  | nil => intro i c h; simp at h
  | cons a as ih =>
    intro i c h
    cases i with
    | zero => simp at h; subst h; simp
    | succ k =>
      simp only [List.getElem?_cons_succ] at h
      simp [List.set_cons_succ, ih h]

end IdxLemmas

section SegListLemmas

variable {β : Type _}

theorem eq_dropLast_append_getLast? : ∀ {l : List β} {e : β}, l.getLast? = some e →
    l = l.dropLast ++ [e] := by
  intro l
  induction l with
  | nil => intro e h; simp at h
  | cons a as ih =>
    intro e h
    cases as with
    | nil => simp at h; subst h; simp
    | cons b bs =>
      rw [List.getLast?_cons_cons] at h
      have := ih h
      calc a :: b :: bs = a :: ((b :: bs).dropLast ++ [e]) := by rw [← this]
        _ = (a :: b :: bs).dropLast ++ [e] := by simp

theorem setLastEnd_eq {segs : List (ℚ × ℚ)} {e0 : ℚ × ℚ} (h : segs.getLast? = some e0)
    (e : ℚ) : setLastEnd segs e = segs.dropLast ++ [(e0.1, e)] := by
  unfold setLastEnd
  rw [h]

theorem lastEnd?_eq_some {segs : List (ℚ × ℚ)} {t : ℚ} (h : lastEnd? segs = some t) :
    ∃ s0 : ℚ, segs.getLast? = some (s0, t) := by
  unfold lastEnd? at h
  cases hg : segs.getLast? with
  | none => rw [hg] at h; simp at h
  | some e =>
    rw [hg] at h
    simp at h
    exact ⟨e.1, by rw [← h]⟩


theorem segSum_append (l1 l2 : List (ℚ × ℚ)) :
    segSum (l1 ++ l2) = segSum l1 + segSum l2 := by
  simp [segSum]

theorem segSum_setLastEnd {segs : List (ℚ × ℚ)} {e0 : ℚ × ℚ}
    (h : segs.getLast? = some e0) (e : ℚ) :
    segSum (setLastEnd segs e) = segSum segs + (e - e0.2) := by
  rw [setLastEnd_eq h e]
  conv_rhs => rw [eq_dropLast_append_getLast? h]
  rw [segSum_append, segSum_append]
  simp [segSum]
  ring

end SegListLemmas

end PV
namespace PV

section SegInvHelpers

theorem perm_middle_snoc {α : Type _} (A1 S A2 : List α) (e : α) :
    (A1 ++ ((S ++ [e]) ++ A2)).Perm ((A1 ++ (S ++ A2)) ++ [e]) := by
  have h1 : A1 ++ ((S ++ [e]) ++ A2) = A1 ++ (S ++ ([e] ++ A2)) := by simp
  have h2 : (A1 ++ (S ++ A2)) ++ [e] = A1 ++ (S ++ (A2 ++ [e])) := by simp
  rw [h1, h2]
  exact (@List.perm_append_comm _ [e] A2).append_left S |>.append_left A1

theorem pairwise_snoc_iff {α : Type _} {R : α → α → Prop} {M : List α} {e : α} :
    (M ++ [e]).Pairwise R ↔ M.Pairwise R ∧ ∀ sg ∈ M, R sg e := by
  rw [List.pairwise_append]
  simp

theorem seginv_snoc_new {M : List (ℚ × ℚ)} {t t2 : ℚ} (ht : t < t2)
    (hb : ∀ sg ∈ M, sg.1 < sg.2 ∧ sg.2 ≤ t)
    (hp : M.Pairwise DisjPair) :
    (∀ sg ∈ M ++ [(t, t2)], sg.1 < sg.2 ∧ sg.2 ≤ t2) ∧
      (M ++ [(t, t2)]).Pairwise DisjPair := by
  constructor
  · intro sg hsg
    rcases List.mem_append.1 hsg with hm | hm
    · obtain ⟨h1, h2⟩ := hb sg hm
      exact ⟨h1, le_trans h2 (le_of_lt ht)⟩
    · simp at hm
      subst hm
      exact ⟨ht, le_refl _⟩
  · rw [pairwise_snoc_iff]
    refine ⟨hp, fun sg hm => ?_⟩
    exact Or.inl (hb sg hm).2

theorem seginv_replace_last {M : List (ℚ × ℚ)} {s0 t t2 : ℚ} (ht : t < t2)
    (hb : ∀ sg ∈ M ++ [(s0, t)], sg.1 < sg.2 ∧ sg.2 ≤ t)
    (hp : (M ++ [(s0, t)]).Pairwise DisjPair) :
    (∀ sg ∈ M ++ [(s0, t2)], sg.1 < sg.2 ∧ sg.2 ≤ t2) ∧
      (M ++ [(s0, t2)]).Pairwise DisjPair := by
  have hlast : (s0 : ℚ) < t := (hb (s0, t) (by simp)).1
  have hM : ∀ sg ∈ M, sg.1 < sg.2 ∧ sg.2 ≤ t :=
    fun sg hm => hb sg (List.mem_append_left _ hm)
  obtain ⟨hpM, hdisj⟩ := pairwise_snoc_iff.1 hp
  have hdisj2 : ∀ sg ∈ M, sg.2 ≤ s0 := by
    intro sg hm
    rcases hdisj sg hm with h | h
    · exact h
    · exfalso
      obtain ⟨h1, h2⟩ := hM sg hm
      simp only at h
      exact absurd (lt_of_lt_of_le (lt_of_le_of_lt h h1) h2) (lt_irrefl t)
  constructor
  · intro sg hsg
    rcases List.mem_append.1 hsg with hm | hm
    · obtain ⟨h1, h2⟩ := hM sg hm
      exact ⟨h1, le_trans h2 (le_of_lt ht)⟩
    · simp at hm
      subst hm
      exact ⟨lt_trans hlast ht, le_refl _⟩
  · rw [pairwise_snoc_iff]
    exact ⟨hpM, fun sg hm => Or.inl (hdisj2 sg hm)⟩

theorem allSegs_append (l1 l2 : List Proc) :
    allSegs (l1 ++ l2) = allSegs l1 ++ allSegs l2 := by
  simp [allSegs]

theorem allSegs_cons (p : Proc) (l : List Proc) :
    allSegs (p :: l) = p.segments ++ allSegs l := by
  simp [allSegs]

theorem allSegs_init (plist : List Proc) :
    allSegs (plist.map (fun p => { p with remaining := p.burst, segments := [] })) = [] := by
  induction plist with
  | nil => simp [allSegs]
  | cons p rest ih => simpa [allSegs_cons] using ih

theorem mem_allSegs {pl : List Proc} {sg : ℚ × ℚ} :
    sg ∈ allSegs pl ↔ ∃ p ∈ pl, sg ∈ p.segments := by
  simp only [allSegs, List.mem_flatten, List.mem_map]
  constructor
  · rintro ⟨l, ⟨p, hp, rfl⟩, hsg⟩
    exact ⟨p, hp, hsg⟩
  · rintro ⟨p, hp, hsg⟩
    exact ⟨p.segments, ⟨p, hp, rfl⟩, hsg⟩

end SegInvHelpers

section FlattenLemmas

theorem flattenSegs_map_pair (pl : List Proc) :
    (flattenSegs pl).map (fun s => (s.start, s.finish)) = allSegs pl := by
  induction pl with
  | nil => simp [flattenSegs, allSegs]
  | cons p rest ih =>
    have h1 : flattenSegs (p :: rest) = procSegsOut p ++ flattenSegs rest := by
      simp [flattenSegs]
    rw [h1, List.map_append, ih, allSegs_cons]
    congr 1
    simp only [procSegsOut, List.map_map]
    calc List.map ((fun s : Seg => (s.start, s.finish)) ∘ fun s =>
          (⟨p.name, p.arrival, p.burst, s.1, s.2⟩ : Seg)) p.segments
        = List.map id p.segments := List.map_congr_left (fun x _ => rfl)
      _ = p.segments := List.map_id _

theorem mem_flattenSegs {pl : List Proc} {s : Seg} :
    s ∈ flattenSegs pl ↔ ∃ p ∈ pl, s ∈ procSegsOut p := by
  simp only [flattenSegs, List.mem_flatten, List.mem_map]
  constructor
  · rintro ⟨l, ⟨p, hp, rfl⟩, hs⟩
    exact ⟨p, hp, hs⟩
  · rintro ⟨p, hp, hs⟩
    exact ⟨procSegsOut p, ⟨p, hp, rfl⟩, hs⟩

theorem pairwise_disj_flattenSegs {pl : List Proc}
    (h : (allSegs pl).Pairwise DisjPair) : (flattenSegs pl).Pairwise Disj := by
  rw [← flattenSegs_map_pair pl] at h
  rw [List.pairwise_map] at h
  exact h.imp (fun hab => hab)

theorem strict_flattenSegs {pl : List Proc}
    (h : ∀ sg ∈ allSegs pl, sg.1 < sg.2) : ∀ s ∈ flattenSegs pl, s.start < s.finish := by
  intro s hs
  have : (s.start, s.finish) ∈ allSegs pl := by
    rw [← flattenSegs_map_pair pl]
    exact List.mem_map_of_mem _ hs
  exact h _ this

end FlattenLemmas

end PV
namespace PV

section SrtfBasic

theorem mem_of_getElem? {α : Type _} {l : List α} {i : Nat} {c : α} (h : l[i]? = some c) :
    c ∈ l := by
  obtain ⟨l1, l2, rfl, -, -⟩ := decomp_of_getElem? h
  simp

theorem srtfExec_specOf (cur : Proc) (last : Option String) (s f : ℚ) :
    specOf (srtfExec cur last s f) = specOf cur := by
  simp only [srtfExec, specOf]
  split <;> rfl

theorem srtfExec_name (cur : Proc) (last : Option String) (s f : ℚ) :
    (srtfExec cur last s f).name = cur.name := by
  simp only [srtfExec]
  split <;> rfl

theorem srtfExec_remaining (cur : Proc) (last : Option String) (s f : ℚ) :
    (srtfExec cur last s f).remaining = cur.remaining - 1 := by
  simp only [srtfExec]
  split <;> rfl

theorem srtfExec_burst (cur : Proc) (last : Option String) (s f : ℚ) :
    (srtfExec cur last s f).burst = cur.burst := by
  simp only [srtfExec]
  split <;> rfl

/-- The selection predicate of the SRTF loop, named for reuse in proofs. -/
theorem srtf_pred_true {t : ℚ} {p : Proc}
    (h : (decide (p.arrival ≤ t) && decide (0 < p.remaining)) = true) :
    p.arrival ≤ t ∧ 0 < p.remaining := by
  simp only [Bool.and_eq_true, decide_eq_true_eq] at h
  exact h

theorem srtfLoop_invariant (P : Proc → Prop)
    (hexec : ∀ (cur : Proc) (last : Option String) (t : ℚ), P cur → 0 < cur.remaining →
      P (srtfExec cur last t (t + 1))) :
    ∀ (fuel : Nat) (pl : List Proc) (t : ℚ) (last : Option String) (post : List Proc),
      srtfLoop fuel pl t last = some post → (∀ p ∈ pl, P p) →
      (∀ p ∈ post, P p) ∧ (∀ p ∈ post, ¬ 0 < p.remaining) := by
  intro fuel
  induction fuel with
  | zero =>
    intro pl t last post h hP
    rw [srtfLoop] at h
    by_cases hany : pl.any (fun p => decide (0 < p.remaining)) = true
    · rw [if_pos hany] at h
      exact absurd h (by simp)
    · rw [if_neg hany] at h
      simp only [Option.some.injEq] at h
      subst h
      refine ⟨hP, ?_⟩
      simpa using hany
  | succ n ih =>
    intro pl t last post h hP
    rw [srtfLoop] at h
    by_cases hany : pl.any (fun p => decide (0 < p.remaining)) = true
    · rw [if_pos hany] at h
      try dsimp only at h
      cases hsel : argminIdxKey (fun p => p.remaining)
          (fun p => decide (p.arrival ≤ t) && decide (0 < p.remaining)) pl with
      | some ic =>
        obtain ⟨i, cur⟩ := ic
        rw [hsel] at h
        try dsimp only at h
        obtain ⟨hget, hpred⟩ := argminIdxKey_some hsel
        have hrem : 0 < cur.remaining := (srtf_pred_true hpred).2
        have hPcur : P cur := hP cur (mem_of_getElem? hget)
        obtain ⟨l1, l2, hpl, -, hset⟩ := decomp_of_getElem? hget
        have hP2 : ∀ p ∈ pl.set i (srtfExec cur last t (t + 1)), P p := by
          rw [hset]
          intro p hp
          rcases List.mem_append.1 hp with hp1 | hp2
          · exact hP p (by rw [hpl]; exact List.mem_append_left _ hp1)
          · rcases List.mem_cons.1 hp2 with rfl | hp3
            · exact hexec cur last t hPcur hrem
            · exact hP p (by rw [hpl]; exact List.mem_append_right _ (List.mem_cons_of_mem _ hp3))
        exact ih _ _ _ _ h hP2
      | none =>
        rw [hsel] at h
        try dsimp only at h
        cases hq : argminKey (fun p => p.arrival)
            (pl.filter (fun p => decide (t < p.arrival) && decide (0 < p.remaining))) with
        | some q =>
          rw [hq] at h
          try dsimp only at h
          exact ih _ _ _ _ h hP
        | none =>
          exfalso
          have hfil : pl.filter (fun p => decide (t < p.arrival) && decide (0 < p.remaining)) = [] :=
            argminKey_eq_none.1 hq
          simp only [List.any_eq_true, decide_eq_true_eq] at hany
          obtain ⟨p0, hp0mem, hp0rem⟩ := hany
          have hnp : ∀ x ∈ pl, (fun p => decide (p.arrival ≤ t) && decide (0 < p.remaining)) x = false :=
            argminIdxKey_eq_none.1 hsel
          have := hnp p0 hp0mem
          simp only [Bool.and_eq_false_iff, decide_eq_false_iff_not, not_le, not_lt] at this
          rcases this with harr | hrem0
          · have : p0 ∈ pl.filter (fun p => decide (t < p.arrival) && decide (0 < p.remaining)) := by
              rw [List.mem_filter]
              exact ⟨hp0mem, by simp [harr, hp0rem]⟩
            rw [hfil] at this
            simp at this
          · exact absurd hp0rem (not_lt.2 hrem0)
    · rw [if_neg hany] at h
      simp only [Option.some.injEq] at h
      subst h
      refine ⟨hP, ?_⟩
      simpa using hany

theorem srtfLoop_specOf : ∀ (fuel : Nat) (pl : List Proc) (t : ℚ) (last : Option String)
    (post : List Proc), srtfLoop fuel pl t last = some post →
    post.map specOf = pl.map specOf := by
  intro fuel
  induction fuel with
  | zero =>
    intro pl t last post h
    rw [srtfLoop] at h
    by_cases hany : pl.any (fun p => decide (0 < p.remaining)) = true
    · rw [if_pos hany] at h
      exact absurd h (by simp)
    · rw [if_neg hany] at h
      simp only [Option.some.injEq] at h
      subst h
      rfl
  | succ n ih =>
    intro pl t last post h
    rw [srtfLoop] at h
    by_cases hany : pl.any (fun p => decide (0 < p.remaining)) = true
    · rw [if_pos hany] at h
      try dsimp only at h
      cases hsel : argminIdxKey (fun p => p.remaining)
          (fun p => decide (p.arrival ≤ t) && decide (0 < p.remaining)) pl with
      | some ic =>
        obtain ⟨i, cur⟩ := ic
        rw [hsel] at h
        try dsimp only at h
        obtain ⟨hget, -⟩ := argminIdxKey_some hsel
        have step := ih _ _ _ _ h
        rw [step]
        rw [List.map_set]
        rw [srtfExec_specOf]
        apply set_eq_of_getElem?
        rw [List.getElem?_map, hget]
        rfl
      | none =>
        rw [hsel] at h
        try dsimp only at h
        cases hq : argminKey (fun p => p.arrival)
            (pl.filter (fun p => decide (t < p.arrival) && decide (0 < p.remaining))) with
        | some q =>
          rw [hq] at h
          try dsimp only at h
          exact ih _ _ _ _ h
        | none =>
          rw [hq] at h
          simp only [Option.some.injEq] at h
          subst h
          rfl
    · rw [if_neg hany] at h
      simp only [Option.some.injEq] at h
      subst h
      rfl

end SrtfBasic

end PV
namespace PV

section SrtfSegInv

theorem transfer_seginv {L L2 : List (ℚ × ℚ)} {t2 : ℚ} (hperm : L.Perm L2)
    (hb : ∀ sg ∈ L, sg.1 < sg.2 ∧ sg.2 ≤ t2) (hp : L.Pairwise DisjPair) :
    (∀ sg ∈ L2, sg.1 < sg.2 ∧ sg.2 ≤ t2) ∧ L2.Pairwise DisjPair :=
  ⟨fun sg hsg => hb sg (hperm.mem_iff.2 hsg),
   hp.perm hperm (fun h => Or.symm h)⟩

theorem srtfExec_segments (cur : Proc) (last : Option String) (s f : ℚ) :
    ((srtfExec cur last s f).segments = setLastEnd cur.segments f ∧
      lastEnd? cur.segments = some s) ∨
    (srtfExec cur last s f).segments = cur.segments ++ [(s, f)] := by
  unfold srtfExec
  dsimp only
  split
  · left
    refine ⟨rfl, ?_⟩
    next hcond => exact hcond.2.2
  · right; rfl

theorem srtfLoop_seginv : ∀ (fuel : Nat) (pl : List Proc) (t : ℚ) (last : Option String)
    (post : List Proc), srtfLoop fuel pl t last = some post →
    (∀ sg ∈ allSegs pl, sg.1 < sg.2 ∧ sg.2 ≤ t) →
    (allSegs pl).Pairwise DisjPair →
    (∀ sg ∈ allSegs post, sg.1 < sg.2) ∧ (allSegs post).Pairwise DisjPair := by
  intro fuel
  induction fuel with
  | zero =>
    intro pl t last post h hb hp
    rw [srtfLoop] at h
    by_cases hany : pl.any (fun p => decide (0 < p.remaining)) = true
    · rw [if_pos hany] at h; exact absurd h (by simp)
    · rw [if_neg hany] at h
      simp only [Option.some.injEq] at h
      subst h
      exact ⟨fun sg hsg => (hb sg hsg).1, hp⟩
  | succ n ih =>
    intro pl t last post h hb hp
    rw [srtfLoop] at h
    by_cases hany : pl.any (fun p => decide (0 < p.remaining)) = true
    · rw [if_pos hany] at h
      try dsimp only at h
      cases hsel : argminIdxKey (fun p => p.remaining)
          (fun p => decide (p.arrival ≤ t) && decide (0 < p.remaining)) pl with
      | some ic =>
        obtain ⟨i, cur⟩ := ic
        rw [hsel] at h
        try dsimp only at h
        obtain ⟨hget, -⟩ := argminIdxKey_some hsel
        obtain ⟨l1, l2, hpl, -, hset⟩ := decomp_of_getElem? hget
        rw [hset] at h
        subst hpl
        have hsplit : allSegs (l1 ++ cur :: l2) =
            allSegs l1 ++ (cur.segments ++ allSegs l2) := by
          rw [allSegs_append, allSegs_cons]
        rw [hsplit] at hb hp
        rcases srtfExec_segments cur last t (t + 1) with ⟨hseg, hlastend⟩ | hseg
        · obtain ⟨s0, hgl⟩ := lastEnd?_eq_some hlastend
          have hdec : cur.segments = cur.segments.dropLast ++ [(s0, t)] :=
            eq_dropLast_append_getLast? hgl
          have hse : setLastEnd cur.segments (t + 1) =
              cur.segments.dropLast ++ [(s0, t + 1)] := setLastEnd_eq hgl (t + 1)
          rw [hdec] at hb hp
          obtain ⟨hb3, hp3⟩ := transfer_seginv
            (perm_middle_snoc (allSegs l1) cur.segments.dropLast (allSegs l2) (s0, t)) hb hp
          obtain ⟨hb4, hp4⟩ := seginv_replace_last (lt_add_one t) hb3 hp3
          obtain ⟨hb5, hp5⟩ := transfer_seginv
            (perm_middle_snoc (allSegs l1) cur.segments.dropLast (allSegs l2) (s0, t + 1)).symm
            hb4 hp4
          have hsplit2 : allSegs (l1 ++ srtfExec cur last t (t + 1) :: l2) =
              allSegs l1 ++ ((cur.segments.dropLast ++ [(s0, t + 1)]) ++ allSegs l2) := by
            rw [allSegs_append, allSegs_cons, hseg, hse]
          exact ih _ _ _ _ h (by rw [hsplit2]; exact hb5) (by rw [hsplit2]; exact hp5)
        · obtain ⟨hb4, hp4⟩ := seginv_snoc_new (lt_add_one t) hb hp
          obtain ⟨hb5, hp5⟩ := transfer_seginv
            (perm_middle_snoc (allSegs l1) cur.segments (allSegs l2) (t, t + 1)).symm hb4 hp4
          have hsplit2 : allSegs (l1 ++ srtfExec cur last t (t + 1) :: l2) =
              allSegs l1 ++ ((cur.segments ++ [(t, t + 1)]) ++ allSegs l2) := by
            rw [allSegs_append, allSegs_cons, hseg]
          exact ih _ _ _ _ h (by rw [hsplit2]; exact hb5) (by rw [hsplit2]; exact hp5)
      | none =>
        rw [hsel] at h
        try dsimp only at h
        cases hq : argminKey (fun p => p.arrival)
            (pl.filter (fun p => decide (t < p.arrival) && decide (0 < p.remaining))) with
        | some q =>
          rw [hq] at h
          try dsimp only at h
          have hqmem := argminKey_mem hq
          have hql : t < q.arrival := by
            rw [List.mem_filter] at hqmem
            have := hqmem.2
            simp only [Bool.and_eq_true, decide_eq_true_eq] at this
            exact this.1
          refine ih _ _ _ _ h (fun sg hsg => ?_) hp
          exact ⟨(hb sg hsg).1, le_trans (hb sg hsg).2 (le_of_lt hql)⟩
        | none =>
          rw [hq] at h
          simp only [Option.some.injEq] at h
          subst h
          exact ⟨fun sg hsg => (hb sg hsg).1, hp⟩
    · rw [if_neg hany] at h
      simp only [Option.some.injEq] at h
      subst h
      exact ⟨fun sg hsg => (hb sg hsg).1, hp⟩

end SrtfSegInv

end PV
namespace PV

section SpecEquiv

theorem getElem?_append_length {α : Type _} : ∀ (l1 : List α) (x : α) (l2 : List α),
    (l1 ++ x :: l2)[l1.length]? = some x := by
  intro l1
  induction l1 with
  | nil => intro x l2; simp
  | cons a as ih => intro x l2; simpa using ih x l2

theorem getElem?_append_mid_ne {α : Type _} : ∀ (l1 : List α) (x y : α) (l2 : List α) (j : Nat),
    j ≠ l1.length → (l1 ++ x :: l2)[j]? = (l1 ++ y :: l2)[j]? := by
  intro l1
  induction l1 with
  | nil =>
    intro x y l2 j hj
    cases j with
    | zero => exact absurd rfl hj
    | succ k => simp
  | cons a as ih =>
    intro x y l2 j hj
    cases j with
    | zero => simp
    | succ k =>
      simp only [List.cons_append, List.getElem?_cons_succ]
      exact ih x y l2 k (by simpa using hj)

theorem mem_of_mem_dropLast {α : Type _} {l : List α} {x : α} (h : x ∈ l.dropLast) : x ∈ l :=
  (List.dropLast_sublist l).subset h

theorem mem_of_getLast? {α : Type _} {l : List α} {e : α} (h : l.getLast? = some e) : e ∈ l := by
  rw [eq_dropLast_append_getLast? h]
  simp

theorem mem_setLastEnd {segs : List (ℚ × ℚ)} {e0 : ℚ × ℚ} {e : ℚ} {sg : ℚ × ℚ}
    (hg : segs.getLast? = some e0) (h : sg ∈ setLastEnd segs e) :
    sg ∈ segs.dropLast ∨ sg = (e0.1, e) := by
  rw [setLastEnd_eq hg e] at h
  rcases List.mem_append.1 h with h1 | h2
  · exact Or.inl h1
  · simp at h2
    exact Or.inr h2

theorem srtfLoop_eq_specLoop : ∀ (fuel : Nat) (pl : List Proc) (t : ℚ)
    (lastN : Option String) (lastI : Option Nat),
    SegsEndLE pl t → LastConsistent pl t lastN lastI →
    srtfLoop fuel pl t lastN = srtfSpecLoop fuel pl t lastI := by
  intro fuel
  induction fuel with
  | zero =>
    intro pl t lastN lastI hend hlc
    rw [srtfLoop, srtfSpecLoop]
  | succ n ih =>
    intro pl t lastN lastI hend hlc
    rw [srtfLoop, srtfSpecLoop]
    by_cases hany : pl.any (fun p => decide (0 < p.remaining)) = true
    · rw [if_pos hany, if_pos hany]
      try dsimp only
      cases hsel : argminIdxKey (fun p => p.remaining)
          (fun p => decide (p.arrival ≤ t) && decide (0 < p.remaining)) pl with
      | some ic =>
        obtain ⟨i, cur⟩ := ic
        try dsimp only
        obtain ⟨hget, -⟩ := argminIdxKey_some hsel
        obtain ⟨l1, l2, hpl, hlen, hset⟩ := decomp_of_getElem? hget
        have hupd : srtfExec cur lastN t (t + 1) =
            (if cur.segments ≠ [] ∧ lastEnd? cur.segments = some t ∧ lastI = some i then
              { cur with remaining := cur.remaining - 1,
                         segments := setLastEnd cur.segments (t + 1) }
            else
              { cur with remaining := cur.remaining - 1,
                         segments := cur.segments ++ [(t, t + 1)] }) := by
          unfold srtfExec
          dsimp only
          by_cases hle : lastEnd? cur.segments = some t
          · obtain ⟨hn, hi⟩ := hlc i cur hget hle
            by_cases hne : cur.segments ≠ []
            · rw [if_pos ⟨hne, hn, hle⟩, if_pos ⟨hne, hle, hi⟩]
            · rw [if_neg (fun hc => hne hc.1), if_neg (fun hc => hne hc.1)]
          · rw [if_neg (fun hc => hle hc.2.2), if_neg (fun hc => hle hc.2.1)]
        rw [hupd]
        set c3 := (if cur.segments ≠ [] ∧ lastEnd? cur.segments = some t ∧ lastI = some i then
              { cur with remaining := cur.remaining - 1,
                         segments := setLastEnd cur.segments (t + 1) }
            else
              { cur with remaining := cur.remaining - 1,
                         segments := cur.segments ++ [(t, t + 1)] }) with hc3
        have hc3segs : ∀ sg ∈ c3.segments, sg.2 ≤ t + 1 := by
          rw [hc3]
          split
          · next hcond =>
            intro sg hsg
            obtain ⟨s0, hgl⟩ := lastEnd?_eq_some hcond.2.1
            rcases mem_setLastEnd hgl hsg with h1 | h2
            · have : sg ∈ cur.segments := mem_of_mem_dropLast h1
              have := hend cur (mem_of_getElem? hget) sg this
              linarith
            · subst h2; simp
          · intro sg hsg
            rcases List.mem_append.1 hsg with h1 | h2
            · have := hend cur (mem_of_getElem? hget) sg h1
              linarith
            · simp at h2; subst h2; simp
        have hc3name : c3.name = cur.name := by
          rw [hc3]; split <;> rfl
        have hend2 : SegsEndLE (pl.set i c3) (t + 1) := by
          rw [hset]
          intro p hp sg hsg
          rcases List.mem_append.1 hp with hp1 | hp2
          · have : p ∈ pl := by rw [hpl]; exact List.mem_append_left _ hp1
            have := hend p this sg hsg
            linarith
          · rcases List.mem_cons.1 hp2 with rfl | hp3
            · exact hc3segs sg hsg
            · have : p ∈ pl := by
                rw [hpl]; exact List.mem_append_right _ (List.mem_cons_of_mem _ hp3)
              have := hend p this sg hsg
              linarith
        have hlc2 : LastConsistent (pl.set i c3) (t + 1) (some cur.name) (some i) := by
          rw [hset]
          intro j d hgd hled
          by_cases hji : j = l1.length
          · subst hji
            rw [getElem?_append_length] at hgd
            simp only [Option.some.injEq] at hgd
            subst hgd
            rw [hc3name]
            exact ⟨rfl, by rw [hlen]⟩
          · exfalso
            rw [getElem?_append_mid_ne l1 c3 cur l2 j hji] at hgd
            have hdpl : pl[j]? = some d := by rw [hpl]; exact hgd
            obtain ⟨s0, hgl⟩ := lastEnd?_eq_some hled
            have hmem : (s0, t + 1) ∈ d.segments := mem_of_getLast? hgl
            have := hend d (mem_of_getElem? hdpl) (s0, t + 1) hmem
            simp at this
            linarith
        have := ih (pl.set i c3) (t + 1) (some cur.name) (some i) hend2 hlc2
        exact this
      | none =>
        try dsimp only
        cases hq : argminKey (fun p => p.arrival)
            (pl.filter (fun p => decide (t < p.arrival) && decide (0 < p.remaining))) with
        | some q =>
          try dsimp only
          have hqmem := argminKey_mem hq
          have hql : t < q.arrival := by
            rw [List.mem_filter] at hqmem
            have := hqmem.2
            simp only [Bool.and_eq_true, decide_eq_true_eq] at this
            exact this.1
          apply ih
          · intro p hp sg hsg
            have := hend p hp sg hsg
            linarith
          · intro j d hgd hled
            exfalso
            obtain ⟨s0, hgl⟩ := lastEnd?_eq_some hled
            have hmem : (s0, q.arrival) ∈ d.segments := mem_of_getLast? hgl
            have := hend d (mem_of_getElem? hgd) (s0, q.arrival) hmem
            simp at this
            linarith
        | none => rfl
    · rw [if_neg hany, if_neg hany]

theorem sjf_preemptive_eq_spec (fuel : Nat) (plist : List Proc) :
    sjf_preemptive_schedule fuel plist = srtf_spec_schedule fuel plist := by
  unfold sjf_preemptive_schedule srtf_spec_schedule
  dsimp only
  have h : srtfLoop fuel (plist.map (fun p => { p with remaining := p.burst, segments := [] })) 0 none
      = srtfSpecLoop fuel (plist.map (fun p => { p with remaining := p.burst, segments := [] })) 0 none := by
    apply srtfLoop_eq_specLoop
    · intro p hp sg hsg
      obtain ⟨q, -, rfl⟩ := List.mem_map.1 hp
      simp at hsg
    · intro i d hgd hled
      exfalso
      rw [List.getElem?_map] at hgd
      cases hq : plist[i]? with
      | none => rw [hq] at hgd; simp at hgd
      | some q =>
        rw [hq] at hgd
        simp only [Option.map_some', Option.some.injEq] at hgd
        subst hgd
        simp [lastEnd?] at hled
  rw [h]

end SpecEquiv

end PV
namespace PV

section RrPassLemmas

theorem rrPass_invariant (P : Proc → Prop) (q : ℚ)
    (hexec : ∀ (p : Proc) (t : ℚ), P p → p.arrival ≤ t → 0 < p.remaining →
      P { p with remaining := p.remaining - min q p.remaining,
                 segments := p.segments ++ [(t, t + min q p.remaining)] }) :
    ∀ (l : List Proc) (t : ℚ), (∀ p ∈ l, P p) → ∀ p ∈ (rrPass q l t).1, P p := by
  intro l
  induction l with
  | nil => intro t _ p hp; simp [rrPass] at hp
  | cons a rest ih =>
    intro t hP p hp
    rw [rrPass] at hp
    by_cases hc : a.arrival ≤ t ∧ 0 < a.remaining
    · rw [if_pos hc] at hp
      dsimp only at hp
      rcases List.mem_cons.1 hp with rfl | hp2
      · exact hexec a t (hP a (by simp)) hc.1 hc.2
      · exact ih (t + min q a.remaining) (fun x hx => hP x (List.mem_cons_of_mem _ hx)) p hp2
    · rw [if_neg hc] at hp
      dsimp only at hp
      rcases List.mem_cons.1 hp with rfl | hp2
      · exact hP p (by simp)
      · exact ih t (fun x hx => hP x (List.mem_cons_of_mem _ hx)) p hp2

theorem rrPass_no_exec (q : ℚ) : ∀ (l : List Proc) (t : ℚ),
    (rrPass q l t).2.2 = false → (rrPass q l t).1 = l ∧ (rrPass q l t).2.1 = t := by
  intro l
  induction l with
  | nil => intro t _; simp [rrPass]
  | cons a rest ih =>
    intro t hflag
    rw [rrPass] at hflag ⊢
    by_cases hc : a.arrival ≤ t ∧ 0 < a.remaining
    · rw [if_pos hc] at hflag
      dsimp only at hflag
      exact absurd hflag (by simp)
    · rw [if_neg hc] at hflag ⊢
      dsimp only at hflag ⊢
      obtain ⟨h1, h2⟩ := ih t hflag
      exact ⟨by rw [h1], h2⟩

theorem rrPass_no_exec_forall (q : ℚ) : ∀ (l : List Proc) (t : ℚ),
    (rrPass q l t).2.2 = false → ∀ p ∈ l, ¬(p.arrival ≤ t ∧ 0 < p.remaining) := by
  intro l
  induction l with
  | nil => intro t _ p hp; simp at hp
  | cons a rest ih =>
    intro t hflag p hp
    rw [rrPass] at hflag
    by_cases hc : a.arrival ≤ t ∧ 0 < a.remaining
    · rw [if_pos hc] at hflag
      dsimp only at hflag
      exact absurd hflag (by simp)
    · rw [if_neg hc] at hflag
      dsimp only at hflag
      rcases List.mem_cons.1 hp with rfl | hp2
      · exact hc
      · exact ih t hflag p hp2

theorem rrPass_specOf (q : ℚ) : ∀ (l : List Proc) (t : ℚ),
    ((rrPass q l t).1).map specOf = l.map specOf := by
  intro l
  induction l with
  | nil => simp [rrPass]
  | cons a rest ih =>
    intro t
    rw [rrPass]
    by_cases hc : a.arrival ≤ t ∧ 0 < a.remaining
    · rw [if_pos hc]
      dsimp only
      rw [List.map_cons, List.map_cons, ih]
      rfl
    · rw [if_neg hc]
      dsimp only
      rw [List.map_cons, List.map_cons, ih]

theorem rrPass_any_pos (q : ℚ) (hq : q ≤ 0) : ∀ (l : List Proc) (t : ℚ) (p : Proc),
    p ∈ l → 0 < p.remaining → ∃ p2 ∈ (rrPass q l t).1, 0 < p2.remaining := by
  intro l
  induction l with
  | nil => intro t p hp; simp at hp
  | cons a rest ih =>
    intro t p hp hpos
    rw [rrPass]
    by_cases hc : a.arrival ≤ t ∧ 0 < a.remaining
    · rw [if_pos hc]
      dsimp only
      rcases List.mem_cons.1 hp with rfl | hp2
      · have hx : 0 < p.remaining - min q p.remaining := by
          have hmin : min q p.remaining ≤ q := min_le_left _ _
          linarith [hc.2]
        exact ⟨{ p with remaining := p.remaining - min q p.remaining, segments := p.segments ++ [(t, t + min q p.remaining)] }, List.mem_cons_self _ _, hx⟩
      · obtain ⟨p2, hp2m, hp2pos⟩ := ih (t + min q a.remaining) p hp2 hpos
        exact ⟨p2, List.mem_cons_of_mem _ hp2m, hp2pos⟩
    · rw [if_neg hc]
      dsimp only
      rcases List.mem_cons.1 hp with rfl | hp2
      · exact ⟨p, by simp, hpos⟩
      · obtain ⟨p2, hp2m, hp2pos⟩ := ih t p hp2 hpos
        exact ⟨p2, List.mem_cons_of_mem _ hp2m, hp2pos⟩

end RrPassLemmas

end PV
namespace PV

section RrSegInv

theorem seginv_perm_snoc {L L2 : List (ℚ × ℚ)} {t t2 : ℚ} (ht : t < t2)
    (hperm : L2.Perm (L ++ [(t, t2)]))
    (hb : ∀ sg ∈ L, sg.1 < sg.2 ∧ sg.2 ≤ t) (hp : L.Pairwise DisjPair) :
    (∀ sg ∈ L2, sg.1 < sg.2 ∧ sg.2 ≤ t2) ∧ L2.Pairwise DisjPair := by
  obtain ⟨hb2, hp2⟩ := seginv_snoc_new ht hb hp
  exact transfer_seginv hperm.symm hb2 hp2

theorem rrPass_seginv (q : ℚ) (hq : 0 < q) :
    ∀ (l : List Proc) (t : ℚ) (F : List (ℚ × ℚ)),
      (∀ sg ∈ F ++ allSegs l, sg.1 < sg.2 ∧ sg.2 ≤ t) →
      (F ++ allSegs l).Pairwise DisjPair →
      (∀ sg ∈ F ++ allSegs (rrPass q l t).1, sg.1 < sg.2 ∧ sg.2 ≤ (rrPass q l t).2.1) ∧
        (F ++ allSegs (rrPass q l t).1).Pairwise DisjPair ∧ t ≤ (rrPass q l t).2.1 := by
  intro l
  induction l with
  | nil =>
    intro t F hb hp
    rw [rrPass]
    exact ⟨hb, hp, le_refl t⟩
  | cons a rest ih =>
    intro t F hb hp
    rw [rrPass]
    by_cases hc : a.arrival ≤ t ∧ 0 < a.remaining
    · rw [if_pos hc]
      dsimp only
      have hemin : 0 < min q a.remaining := lt_min hq hc.2
      set e := min q a.remaining with he
      set a2 := { a with remaining := a.remaining - e, segments := a.segments ++ [(t, t + e)] } with ha2
      have hsegs2 : a2.segments = a.segments ++ [(t, t + e)] := rfl
      have hshape : F ++ allSegs (a :: rest) = (F ++ a.segments) ++ allSegs rest := by
        rw [allSegs_cons, ← List.append_assoc]
      rw [hshape] at hb hp
      have hperm : ((F ++ a2.segments) ++ allSegs rest).Perm
          (((F ++ a.segments) ++ allSegs rest) ++ [(t, t + e)]) := by
        rw [hsegs2]
        refine List.perm_iff_count.2 fun x => ?_
        simp only [List.count_append]
        omega
      have ht2 : t < t + e := by linarith
      obtain ⟨hb2, hp2⟩ := seginv_perm_snoc ht2 hperm hb hp
      obtain ⟨hb3, hp3, hmono⟩ := ih (t + e) (F ++ a2.segments) hb2 hp2
      refine ⟨?_, ?_, by linarith⟩
      · intro sg hsg
        rw [allSegs_cons, ← List.append_assoc] at hsg
        exact hb3 sg hsg
      · rw [allSegs_cons, ← List.append_assoc]
        exact hp3
    · rw [if_neg hc]
      dsimp only
      have hshape : F ++ allSegs (a :: rest) = (F ++ a.segments) ++ allSegs rest := by
        rw [allSegs_cons, ← List.append_assoc]
      rw [hshape] at hb hp
      obtain ⟨hb3, hp3, hmono⟩ := ih t (F ++ a.segments) hb hp
      refine ⟨?_, ?_, hmono⟩
      · intro sg hsg
        rw [allSegs_cons, ← List.append_assoc] at hsg
        exact hb3 sg hsg
      · rw [allSegs_cons, ← List.append_assoc]
        exact hp3

end RrSegInv

end PV
namespace PV

section RrLoopLemmas

theorem rrLoop_invariant (P : Proc → Prop) (q : ℚ)
    (hexec : ∀ (p : Proc) (t : ℚ), P p → p.arrival ≤ t → 0 < p.remaining →
      P { p with remaining := p.remaining - min q p.remaining,
                 segments := p.segments ++ [(t, t + min q p.remaining)] }) :
    ∀ (fuel : Nat) (l : List Proc) (t : ℚ) (post : List Proc),
      rrLoop q fuel l t = some post → (∀ p ∈ l, P p) →
      (∀ p ∈ post, P p) ∧ (∀ p ∈ post, ¬ 0 < p.remaining) := by
  intro fuel
  induction fuel with
  | zero =>
    intro l t post h hP
    rw [rrLoop] at h
    by_cases hany : l.any (fun p => decide (0 < p.remaining)) = true
    · rw [if_pos hany] at h
      exact absurd h (by simp)
    · rw [if_neg hany] at h
      simp only [Option.some.injEq] at h
      subst h
      exact ⟨hP, by simpa using hany⟩
  | succ n ih =>
    intro l t post h hP
    rw [rrLoop] at h
    by_cases hany : l.any (fun p => decide (0 < p.remaining)) = true
    · rw [if_pos hany] at h
      try dsimp only at h
      by_cases hflag : (rrPass q l t).2.2 = true
      · rw [if_pos hflag] at h
        exact ih _ _ _ h (rrPass_invariant P q hexec l t hP)
      · rw [if_neg hflag] at h
        have hflag2 : (rrPass q l t).2.2 = false := by simpa using hflag
        obtain ⟨hid, htid⟩ := rrPass_no_exec q l t hflag2
        simp only [List.any_eq_true, decide_eq_true_eq] at hany
        obtain ⟨p0, hp0mem, hp0rem⟩ := hany
        have hall := rrPass_no_exec_forall q l t hflag2
        have harr : t < p0.arrival := by
          rcases not_and_or.1 (hall p0 hp0mem) with h1 | h2
          · exact lt_of_not_le h1
          · exact absurd hp0rem h2
        cases hq2 : argminKey (fun p => p.arrival)
            ((rrPass q l t).1.filter
              (fun p => decide ((rrPass q l t).2.1 < p.arrival) && decide (0 < p.remaining))) with
        | some q0 =>
          rw [hq2] at h
          try dsimp only at h
          refine ih _ _ _ h ?_
          rw [hid]
          exact hP
        | none =>
          exfalso
          have hnone := argminKey_eq_none.1 hq2
          have hmemf : p0 ∈ (rrPass q l t).1.filter
              (fun p => decide ((rrPass q l t).2.1 < p.arrival) && decide (0 < p.remaining)) := by
            rw [List.mem_filter]
            constructor
            · rw [hid]; exact hp0mem
            · rw [htid]; simp [harr, hp0rem]
          rw [hnone] at hmemf
          simp at hmemf
    · rw [if_neg hany] at h
      simp only [Option.some.injEq] at h
      subst h
      exact ⟨hP, by simpa using hany⟩

theorem rrLoop_specOf (q : ℚ) : ∀ (fuel : Nat) (l : List Proc) (t : ℚ) (post : List Proc),
    rrLoop q fuel l t = some post → post.map specOf = l.map specOf := by
  intro fuel
  induction fuel with
  | zero =>
    intro l t post h
    rw [rrLoop] at h
    by_cases hany : l.any (fun p => decide (0 < p.remaining)) = true
    · rw [if_pos hany] at h
      exact absurd h (by simp)
    · rw [if_neg hany] at h
      simp only [Option.some.injEq] at h
      subst h
      rfl
  | succ n ih =>
    intro l t post h
    rw [rrLoop] at h
    by_cases hany : l.any (fun p => decide (0 < p.remaining)) = true
    · rw [if_pos hany] at h
      try dsimp only at h
      by_cases hflag : (rrPass q l t).2.2 = true
      · rw [if_pos hflag] at h
        rw [ih _ _ _ h]
        exact rrPass_specOf q l t
      · rw [if_neg hflag] at h
        have hflag2 : (rrPass q l t).2.2 = false := by simpa using hflag
        obtain ⟨hid, -⟩ := rrPass_no_exec q l t hflag2
        cases hq2 : argminKey (fun p => p.arrival)
            ((rrPass q l t).1.filter
              (fun p => decide ((rrPass q l t).2.1 < p.arrival) && decide (0 < p.remaining))) with
        | some q0 =>
          rw [hq2] at h
          try dsimp only at h
          rw [ih _ _ _ h, hid]
        | none =>
          rw [hq2] at h
          simp only [Option.some.injEq] at h
          subst h
          rw [hid]
    · rw [if_neg hany] at h
      simp only [Option.some.injEq] at h
      subst h
      rfl

theorem rrLoop_seginv (q : ℚ) (hq : 0 < q) :
    ∀ (fuel : Nat) (l : List Proc) (t : ℚ) (post : List Proc),
      rrLoop q fuel l t = some post →
      (∀ sg ∈ allSegs l, sg.1 < sg.2 ∧ sg.2 ≤ t) →
      (allSegs l).Pairwise DisjPair →
      (∀ sg ∈ allSegs post, sg.1 < sg.2) ∧ (allSegs post).Pairwise DisjPair := by
  intro fuel
  induction fuel with
  | zero =>
    intro l t post h hb hp
    rw [rrLoop] at h
    by_cases hany : l.any (fun p => decide (0 < p.remaining)) = true
    · rw [if_pos hany] at h
      exact absurd h (by simp)
    · rw [if_neg hany] at h
      simp only [Option.some.injEq] at h
      subst h
      exact ⟨fun sg hsg => (hb sg hsg).1, hp⟩
  | succ n ih =>
    intro l t post h hb hp
    rw [rrLoop] at h
    by_cases hany : l.any (fun p => decide (0 < p.remaining)) = true
    · rw [if_pos hany] at h
      try dsimp only at h
      have hbF : ∀ sg ∈ ([] : List (ℚ × ℚ)) ++ allSegs l, sg.1 < sg.2 ∧ sg.2 ≤ t := by
        simpa using hb
      have hpF : (([] : List (ℚ × ℚ)) ++ allSegs l).Pairwise DisjPair := by simpa using hp
      obtain ⟨hb2, hp2, hmono⟩ := rrPass_seginv q hq l t [] hbF hpF
      simp only [List.nil_append] at hb2 hp2
      by_cases hflag : (rrPass q l t).2.2 = true
      · rw [if_pos hflag] at h
        exact ih _ _ _ h hb2 hp2
      · rw [if_neg hflag] at h
        have hflag2 : (rrPass q l t).2.2 = false := by simpa using hflag
        obtain ⟨hid, htid⟩ := rrPass_no_exec q l t hflag2
        cases hq2 : argminKey (fun p => p.arrival)
            ((rrPass q l t).1.filter
              (fun p => decide ((rrPass q l t).2.1 < p.arrival) && decide (0 < p.remaining))) with
        | some q0 =>
          rw [hq2] at h
          try dsimp only at h
          have hq0mem := argminKey_mem hq2
          have hq0arr : (rrPass q l t).2.1 < q0.arrival := by
            rw [List.mem_filter] at hq0mem
            have := hq0mem.2
            simp only [Bool.and_eq_true, decide_eq_true_eq] at this
            exact this.1
          refine ih _ _ _ h (fun sg hsg => ?_) hp2
          have := hb2 sg hsg
          exact ⟨this.1, le_trans this.2 (le_of_lt hq0arr)⟩
        | none =>
          rw [hq2] at h
          simp only [Option.some.injEq] at h
          subst h
          exact ⟨fun sg hsg => (hb2 sg hsg).1, hp2⟩
    · rw [if_neg hany] at h
      simp only [Option.some.injEq] at h
      subst h
      exact ⟨fun sg hsg => (hb sg hsg).1, hp⟩

theorem rrLoop_none_of_nonpos (q : ℚ) (hq : q ≤ 0) :
    ∀ (fuel : Nat) (l : List Proc) (t : ℚ), (∃ p ∈ l, 0 < p.remaining) →
      rrLoop q fuel l t = none := by
  intro fuel
  induction fuel with
  | zero =>
    intro l t hex
    rw [rrLoop]
    have hany : l.any (fun p => decide (0 < p.remaining)) = true := by
      simpa [List.any_eq_true] using hex
    rw [if_pos hany]
  | succ n ih =>
    intro l t hex
    rw [rrLoop]
    have hany : l.any (fun p => decide (0 < p.remaining)) = true := by
      simpa [List.any_eq_true] using hex
    rw [if_pos hany]
    try dsimp only
    obtain ⟨p0, hp0mem, hpos⟩ := hex
    by_cases hflag : (rrPass q l t).2.2 = true
    · rw [if_pos hflag]
      exact ih _ _ (rrPass_any_pos q hq l t p0 hp0mem hpos)
    · rw [if_neg hflag]
      have hflag2 : (rrPass q l t).2.2 = false := by simpa using hflag
      obtain ⟨hid, htid⟩ := rrPass_no_exec q l t hflag2
      have hall := rrPass_no_exec_forall q l t hflag2
      have harr : t < p0.arrival := by
        rcases not_and_or.1 (hall p0 hp0mem) with h1 | h2
        · exact lt_of_not_le h1
        · exact absurd hpos h2
      cases hq2 : argminKey (fun p => p.arrival)
          ((rrPass q l t).1.filter
            (fun p => decide ((rrPass q l t).2.1 < p.arrival) && decide (0 < p.remaining))) with
      | some q0 =>
        try dsimp only
        refine ih _ _ ?_
        refine ⟨p0, ?_, hpos⟩
        rw [hid]
        exact hp0mem
      | none =>
        exfalso
        have hnone := argminKey_eq_none.1 hq2
        have hmemf : p0 ∈ (rrPass q l t).1.filter
            (fun p => decide ((rrPass q l t).2.1 < p.arrival) && decide (0 < p.remaining)) := by
          rw [List.mem_filter]
          constructor
          · rw [hid]; exact hp0mem
          · rw [htid]; simp [harr, hpos]
        rw [hnone] at hmemf
        simp at hmemf

end RrLoopLemmas

end PV
namespace PV

section AlgLevel

theorem procDur_rmsDefault (p : Proc) : procDur (rmsDefault p) = procDur p := by
  unfold rmsDefault procDur
  split <;> rfl

theorem procDur_edfDefault (p : Proc) : procDur (edfDefault p) = procDur p := by
  unfold edfDefault procDur
  split <;> rfl

theorem burst_rmsDefault (p : Proc) : (rmsDefault p).burst = p.burst := by
  unfold rmsDefault
  split <;> rfl

theorem burst_edfDefault (p : Proc) : (edfDefault p).burst = p.burst := by
  unfold edfDefault
  split <;> rfl

theorem fcfs_conservation (plist : List Proc) :
    ((fcfs_schedule plist).map segDur).Perm (plist.map procDur) := by
  unfold fcfs_schedule
  rw [fcfsLoop_map_dur]
  exact (pySorted_perm _ plist).map procDur

theorem sjf_np_conservation {plist : List Proc} {sched : List Seg}
    (h : sjf_non_preemptive_schedule plist = some sched) :
    (sched.map segDur).Perm (plist.map procDur) :=
  greedyLoop_perm (fun _ _ hx => argminKey_mem hx) _ _ _ _ h

theorem priority_conservation {plist : List Proc} {order : String} {sched : List Seg}
    (h : priority_schedule plist order = some sched) :
    (sched.map segDur).Perm (plist.map procDur) := by
  unfold priority_schedule at h
  by_cases ho : order = "Smaller Priority First"
  · rw [if_pos ho] at h
    exact greedyLoop_perm (fun _ _ hx => argminKey_mem hx) _ _ _ _ h
  · rw [if_neg ho] at h
    exact greedyLoop_perm (fun _ _ hx => argmaxKey_mem hx) _ _ _ _ h

theorem map_procDur_rmsDefault (plist : List Proc) :
    (plist.map rmsDefault).map procDur = plist.map procDur := by
  rw [List.map_map]
  exact List.map_congr_left (fun p _ => procDur_rmsDefault p)

theorem map_procDur_edfDefault (plist : List Proc) :
    (plist.map edfDefault).map procDur = plist.map procDur := by
  rw [List.map_map]
  exact List.map_congr_left (fun p _ => procDur_edfDefault p)

theorem rms_conservation {plist : List Proc} {sched : List Seg}
    (h : (rms_schedule plist).2 = some sched) :
    (sched.map segDur).Perm (plist.map procDur) := by
  unfold rms_schedule at h
  dsimp only at h
  have h2 := greedyLoop_perm (fun _ _ hx => argminKey_mem hx) _ _ _ _ h
  rwa [map_procDur_rmsDefault] at h2

theorem edf_conservation {plist : List Proc} {sched : List Seg}
    (h : (edf_schedule plist).2 = some sched) :
    (sched.map segDur).Perm (plist.map procDur) := by
  unfold edf_schedule at h
  dsimp only at h
  have h2 := greedyLoop_perm (fun _ _ hx => argminKey_mem hx) _ _ _ _ h
  refine h2.trans ?_
  refine ((pySorted_perm _ _).map procDur).trans ?_
  rw [map_procDur_edfDefault]

theorem sjf_preemptive_unpack {fuel : Nat} {plist post : List Proc} {sched : List Seg}
    (h : sjf_preemptive_schedule fuel plist = some (post, sched)) :
    srtfLoop fuel (plist.map (fun p => { p with remaining := p.burst, segments := [] })) 0 none
      = some post ∧ sched = sortByStart (flattenSegs post) := by
  unfold sjf_preemptive_schedule at h
  dsimp only at h
  cases hl : srtfLoop fuel
      (plist.map (fun p => { p with remaining := p.burst, segments := [] })) 0 none with
  | none => rw [hl] at h; simp at h
  | some post2 =>
    rw [hl] at h
    simp only [Option.map_some', Option.some.injEq, Prod.mk.injEq] at h
    obtain ⟨h1, h2⟩ := h
    subst h1
    exact ⟨rfl, h2.symm⟩

theorem rr_unpack {fuel : Nat} {plist post : List Proc} {q : ℚ} {sched : List Seg}
    (h : round_robin_schedule fuel plist q = some (post, sched)) :
    rrLoop q fuel ((pySorted (fun p => p.arrival) plist).map
        (fun p => { p with remaining := p.burst, segments := [] })) 0 = some post ∧
      sched = sortByStart (flattenSegs post) := by
  unfold round_robin_schedule at h
  dsimp only at h
  cases hl : rrLoop q fuel ((pySorted (fun p => p.arrival) plist).map
      (fun p => { p with remaining := p.burst, segments := [] })) 0 with
  | none => rw [hl] at h; simp at h
  | some post2 =>
    rw [hl] at h
    simp only [Option.map_some', Option.some.injEq, Prod.mk.injEq] at h
    obtain ⟨h1, h2⟩ := h
    subst h1
    exact ⟨rfl, h2.symm⟩

theorem segSum_srtfExec (cur : Proc) (last : Option String) (t : ℚ) :
    segSum (srtfExec cur last t (t + 1)).segments = segSum cur.segments + 1 := by
  rcases srtfExec_segments cur last t (t + 1) with ⟨hseg, hlast⟩ | hseg
  · rw [hseg]
    obtain ⟨s0, hgl⟩ := lastEnd?_eq_some hlast
    rw [segSum_setLastEnd hgl]
    norm_num
  · rw [hseg, segSum_append]
    simp [segSum]

theorem srtf_conservation {fuel : Nat} {plist post : List Proc} {sched : List Seg}
    (hib : ∀ p ∈ plist, ∃ n : ℕ, p.burst = (n : ℚ))
    (h : sjf_preemptive_schedule fuel plist = some (post, sched)) :
    ∀ p ∈ post, segSum p.segments = p.burst := by
  obtain ⟨hl, -⟩ := sjf_preemptive_unpack h
  have hexec : ∀ (cur : Proc) (last : Option String) (t : ℚ),
      ((∃ n : ℕ, cur.remaining = (n : ℚ)) ∧ cur.remaining + segSum cur.segments = cur.burst) →
      0 < cur.remaining →
      ((∃ n : ℕ, (srtfExec cur last t (t + 1)).remaining = (n : ℚ)) ∧
        (srtfExec cur last t (t + 1)).remaining +
          segSum (srtfExec cur last t (t + 1)).segments = (srtfExec cur last t (t + 1)).burst) := by
    intro cur last t ⟨⟨n, hn⟩, hsum⟩ hpos
    rw [srtfExec_remaining, srtfExec_burst, segSum_srtfExec]
    constructor
    · have hn1 : 1 ≤ n := by
        by_contra hn0
        have : n = 0 := by omega
        subst this
        rw [hn] at hpos
        norm_num at hpos
      refine ⟨n - 1, ?_⟩
      rw [hn]
      push_cast [Nat.cast_sub hn1]
      ring
    · linarith
  have hinit : ∀ p ∈ plist.map (fun p => { p with remaining := p.burst, segments := [] }),
      (∃ n : ℕ, p.remaining = (n : ℚ)) ∧ p.remaining + segSum p.segments = p.burst := by
    intro p hp
    obtain ⟨q, hq, rfl⟩ := List.mem_map.1 hp
    refine ⟨hib q hq, ?_⟩
    simp [segSum]
  obtain ⟨hfin, hstop⟩ := srtfLoop_invariant _ hexec fuel _ 0 none post hl hinit
  intro p hp
  obtain ⟨⟨n, hn⟩, hsum⟩ := hfin p hp
  have h0 : (0 : ℚ) ≤ p.remaining := by rw [hn]; positivity
  have h1 : ¬ 0 < p.remaining := hstop p hp
  have : p.remaining = 0 := le_antisymm (not_lt.1 h1) h0
  linarith

theorem rr_conservation {fuel : Nat} {plist post : List Proc} {q : ℚ} {sched : List Seg}
    (hb : ∀ p ∈ plist, 0 ≤ p.burst)
    (h : round_robin_schedule fuel plist q = some (post, sched)) :
    ∀ p ∈ post, segSum p.segments = p.burst := by
  obtain ⟨hl, -⟩ := rr_unpack h
  have hexec : ∀ (p : Proc) (t : ℚ),
      (0 ≤ p.remaining ∧ p.remaining + segSum p.segments = p.burst) →
      p.arrival ≤ t → 0 < p.remaining →
      (0 ≤ ({ p with remaining := p.remaining - min q p.remaining, segments := p.segments ++ [(t, t + min q p.remaining)] } : Proc).remaining ∧ ({ p with remaining := p.remaining - min q p.remaining, segments := p.segments ++ [(t, t + min q p.remaining)] } : Proc).remaining + segSum ({ p with remaining := p.remaining - min q p.remaining, segments := p.segments ++ [(t, t + min q p.remaining)] } : Proc).segments = ({ p with remaining := p.remaining - min q p.remaining, segments := p.segments ++ [(t, t + min q p.remaining)] } : Proc).burst) := by
    intro p t hP harr hpos
    obtain ⟨h0, hsum⟩ := hP
    have hmin : min q p.remaining ≤ p.remaining := min_le_right _ _
    constructor
    · show (0:ℚ) ≤ p.remaining - min q p.remaining
      linarith
    · show p.remaining - min q p.remaining +
        segSum (p.segments ++ [(t, t + min q p.remaining)]) = p.burst
      rw [segSum_append]
      simp only [segSum, List.map_cons, List.map_nil, List.sum_cons, List.sum_nil] at hsum ⊢
      linarith
  have hinit : ∀ p ∈ (pySorted (fun p => p.arrival) plist).map
      (fun p => { p with remaining := p.burst, segments := [] }),
      0 ≤ p.remaining ∧ p.remaining + segSum p.segments = p.burst := by
    intro p hp
    obtain ⟨r, hr, rfl⟩ := List.mem_map.1 hp
    have hrb : 0 ≤ r.burst := hb r ((pySorted_perm _ plist).subset hr)
    exact ⟨hrb, by simp [segSum]⟩
  obtain ⟨hfin, hstop⟩ := rrLoop_invariant _ q hexec fuel _ 0 post hl hinit
  intro p hp
  obtain ⟨h0, hsum⟩ := hfin p hp
  have h1 : ¬ 0 < p.remaining := hstop p hp
  have : p.remaining = 0 := le_antisymm (not_lt.1 h1) h0
  linarith

end AlgLevel

end PV
namespace PV

section NoOverlapLevel

theorem greedy_no_overlap {choose : List Proc → Option Proc}
    (hgood : ∀ l x, choose l = some x → x ∈ l)
    {fuel : Nat} {uns : List Proc} {t : ℚ} {sched : List Seg}
    (hb : ∀ p ∈ uns, 0 ≤ p.burst)
    (h : greedyLoop choose fuel uns t = some sched) : Chrono (sortByStart sched) := by
  obtain ⟨hmem, hchain⟩ := greedyLoop_chrono hgood fuel uns t sched hb h
  exact chrono_sortByStart_of_chrono (fun s hs => (hmem s hs).2) hchain

theorem fcfs_no_overlap {plist : List Proc} (hb : ∀ p ∈ plist, 0 ≤ p.burst) :
    Chrono (sortByStart (fcfs_schedule plist)) := by
  unfold fcfs_schedule
  have hb2 : ∀ p ∈ pySorted (fun p => p.arrival) plist, 0 ≤ p.burst :=
    fun p hp => hb p ((pySorted_perm _ plist).subset hp)
  obtain ⟨hmem, hchain⟩ := fcfsLoop_props _ 0 hb2
  exact chrono_sortByStart_of_chrono (fun s hs => (hmem s hs).2) hchain

theorem srtf_no_overlap {fuel : Nat} {plist post : List Proc} {sched : List Seg}
    (h : sjf_preemptive_schedule fuel plist = some (post, sched)) :
    Chrono (sortByStart sched) := by
  obtain ⟨hl, hs⟩ := sjf_preemptive_unpack h
  have hinitb : ∀ sg ∈ allSegs (plist.map (fun p => { p with remaining := p.burst, segments := [] })),
      sg.1 < sg.2 ∧ sg.2 ≤ (0:ℚ) := by
    rw [allSegs_init]
    simp
  have hinitp : (allSegs (plist.map
      (fun p => { p with remaining := p.burst, segments := [] }))).Pairwise DisjPair := by
    rw [allSegs_init]
    simp
  obtain ⟨hstrict, hpair⟩ := srtfLoop_seginv fuel _ 0 none post hl hinitb hinitp
  have hfl_strict := strict_flattenSegs hstrict
  have hfl_pair := pairwise_disj_flattenSegs hpair
  have hchr : Chrono (sortByStart (flattenSegs post)) :=
    chrono_sortByStart_of_pairwise hfl_strict hfl_pair
  subst hs
  refine chrono_sortByStart_of_chrono ?_ hchr
  intro s hsm
  exact le_of_lt (hfl_strict s ((pySorted_perm _ _).subset hsm))

theorem rrLoop_of_no_pos {q : ℚ} {fuel : Nat} {l : List Proc} {t : ℚ}
    (h : ∀ p ∈ l, ¬ 0 < p.remaining) : rrLoop q fuel l t = some l := by
  rw [rrLoop.eq_def]
  dsimp only
  rw [if_neg (by simpa using h)]

theorem rr_no_overlap {fuel : Nat} {plist post : List Proc} {q : ℚ} {sched : List Seg}
    (h : round_robin_schedule fuel plist q = some (post, sched)) :
    Chrono (sortByStart sched) := by
  obtain ⟨hl, hs⟩ := rr_unpack h
  by_cases hq : 0 < q
  · have hinitb : ∀ sg ∈ allSegs ((pySorted (fun p => p.arrival) plist).map
        (fun p => { p with remaining := p.burst, segments := [] })),
        sg.1 < sg.2 ∧ sg.2 ≤ (0:ℚ) := by
      rw [allSegs_init]
      simp
    have hinitp : (allSegs ((pySorted (fun p => p.arrival) plist).map
        (fun p => { p with remaining := p.burst, segments := [] }))).Pairwise DisjPair := by
      rw [allSegs_init]
      simp
    obtain ⟨hstrict, hpair⟩ := rrLoop_seginv q hq fuel _ 0 post hl hinitb hinitp
    have hfl_strict := strict_flattenSegs hstrict
    have hfl_pair := pairwise_disj_flattenSegs hpair
    have hchr : Chrono (sortByStart (flattenSegs post)) :=
      chrono_sortByStart_of_pairwise hfl_strict hfl_pair
    subst hs
    refine chrono_sortByStart_of_chrono ?_ hchr
    intro s hsm
    exact le_of_lt (hfl_strict s ((pySorted_perm _ _).subset hsm))
  · by_cases hex : ∃ p ∈ (pySorted (fun p => p.arrival) plist).map
        (fun p => { p with remaining := p.burst, segments := [] }), 0 < p.remaining
    · rw [rrLoop_none_of_nonpos q (not_lt.1 hq) fuel _ 0 hex] at hl
      exact absurd hl (by simp)
    · push_neg at hex
      rw [rrLoop_of_no_pos (fun p hp => not_lt.2 (hex p hp))] at hl
      simp only [Option.some.injEq] at hl
      have hfl : flattenSegs post = [] := by
        have h2 : (flattenSegs post).map (fun s => (s.start, s.finish)) = [] := by
          rw [flattenSegs_map_pair, ← hl, allSegs_init]
        exact List.map_eq_nil_iff.1 h2
      subst hs
      rw [hfl]
      simp [Chrono, sortByStart, pySorted]

end NoOverlapLevel

section PositiveBursts

theorem srtf_positive_bursts {fuel : Nat} {plist post : List Proc} {sched : List Seg}
    (h : sjf_preemptive_schedule fuel plist = some (post, sched)) :
    ∀ s ∈ sched, 0 < s.burst := by
  obtain ⟨hl, hs⟩ := sjf_preemptive_unpack h
  have hexec : ∀ (cur : Proc) (last : Option String) (t : ℚ),
      (cur.burst ≤ 0 → cur.remaining ≤ 0 ∧ cur.segments = []) → 0 < cur.remaining →
      ((srtfExec cur last t (t + 1)).burst ≤ 0 →
        (srtfExec cur last t (t + 1)).remaining ≤ 0 ∧ (srtfExec cur last t (t + 1)).segments = []) := by
    intro cur last t hP hpos hble
    rw [srtfExec_burst] at hble
    exact absurd hpos (not_lt.2 (hP hble).1)
  have hinit : ∀ p ∈ plist.map (fun p => { p with remaining := p.burst, segments := [] }),
      p.burst ≤ 0 → p.remaining ≤ 0 ∧ p.segments = [] := by
    intro p hp
    obtain ⟨r, -, rfl⟩ := List.mem_map.1 hp
    intro hble
    exact ⟨hble, rfl⟩
  obtain ⟨hfin, -⟩ := srtfLoop_invariant
    (fun p => p.burst ≤ 0 → p.remaining ≤ 0 ∧ p.segments = []) hexec fuel _ 0 none post hl hinit
  intro s hsm
  subst hs
  obtain ⟨p, hp, hsp⟩ := mem_flattenSegs.1 ((pySorted_perm _ _).subset hsm)
  obtain ⟨sg, hsg, rfl⟩ := List.mem_map.1 hsp
  by_contra hle
  push_neg at hle
  have hsegnil := (hfin p hp hle).2
  rw [hsegnil] at hsg
  simp at hsg

theorem rr_positive_bursts {fuel : Nat} {plist post : List Proc} {q : ℚ} {sched : List Seg}
    (h : round_robin_schedule fuel plist q = some (post, sched)) :
    ∀ s ∈ sched, 0 < s.burst := by
  obtain ⟨hl, hs⟩ := rr_unpack h
  have hexec : ∀ (p : Proc) (t : ℚ),
      (p.burst ≤ 0 → p.remaining ≤ 0 ∧ p.segments = []) → p.arrival ≤ t → 0 < p.remaining →
      (({ p with remaining := p.remaining - min q p.remaining, segments := p.segments ++ [(t, t + min q p.remaining)] } : Proc).burst ≤ 0 →
        ({ p with remaining := p.remaining - min q p.remaining, segments := p.segments ++ [(t, t + min q p.remaining)] } : Proc).remaining ≤ 0 ∧
        ({ p with remaining := p.remaining - min q p.remaining, segments := p.segments ++ [(t, t + min q p.remaining)] } : Proc).segments = []) := by
    intro p t hP harr hpos hble
    exact absurd hpos (not_lt.2 (hP hble).1)
  have hinit : ∀ p ∈ (pySorted (fun p => p.arrival) plist).map
      (fun p => { p with remaining := p.burst, segments := [] }),
      p.burst ≤ 0 → p.remaining ≤ 0 ∧ p.segments = [] := by
    intro p hp
    obtain ⟨r, -, rfl⟩ := List.mem_map.1 hp
    intro hble
    exact ⟨hble, rfl⟩
  obtain ⟨hfin, -⟩ := rrLoop_invariant
    (fun p => p.burst ≤ 0 → p.remaining ≤ 0 ∧ p.segments = []) q hexec fuel _ 0 post hl hinit
  intro s hsm
  subst hs
  obtain ⟨p, hp, hsp⟩ := mem_flattenSegs.1 ((pySorted_perm _ _).subset hsm)
  obtain ⟨sg, hsg, rfl⟩ := List.mem_map.1 hsp
  by_contra hle
  push_neg at hle
  have hsegnil := (hfin p hp hle).2
  rw [hsegnil] at hsg
  simp at hsg

end PositiveBursts

section MutationLevel

theorem srtf_specOf_preserved {fuel : Nat} {plist post : List Proc} {sched : List Seg}
    (h : sjf_preemptive_schedule fuel plist = some (post, sched)) :
    post.map specOf = plist.map specOf := by
  obtain ⟨hl, -⟩ := sjf_preemptive_unpack h
  rw [srtfLoop_specOf fuel _ 0 none post hl, List.map_map]
  exact List.map_congr_left (fun p _ => rfl)

theorem rr_specOf_preserved {fuel : Nat} {plist post : List Proc} {q : ℚ} {sched : List Seg}
    (h : round_robin_schedule fuel plist q = some (post, sched)) :
    post.map specOf = (pySorted (fun p => p.arrival) plist).map specOf := by
  obtain ⟨hl, -⟩ := rr_unpack h
  rw [rrLoop_specOf q fuel _ 0 post hl, List.map_map]
  exact List.map_congr_left (fun p _ => rfl)

theorem rms_post_fields (plist : List Proc) :
    ((rms_schedule plist).1).map (fun p => (p.name, p.arrival, p.burst, p.priority, p.deadline)) =
      plist.map (fun p => (p.name, p.arrival, p.burst, p.priority, p.deadline)) := by
  show ((plist.map rmsDefault).map _) = _
  rw [List.map_map]
  refine List.map_congr_left (fun p _ => ?_)
  unfold rmsDefault
  simp only [Function.comp_apply]
  split <;> rfl

theorem edf_post_fields (plist : List Proc) :
    ((edf_schedule plist).1).map (fun p => (p.name, p.arrival, p.burst, p.priority, p.period)) =
      plist.map (fun p => (p.name, p.arrival, p.burst, p.priority, p.period)) := by
  show ((plist.map edfDefault).map _) = _
  rw [List.map_map]
  refine List.map_congr_left (fun p _ => ?_)
  unfold edfDefault
  simp only [Function.comp_apply]
  split <;> rfl

theorem rms_post_period (plist : List Proc) :
    List.Forall₂ (fun p pc => pc.period = some (p.period.getD (p.arrival + p.burst)))
      plist (rms_schedule plist).1 := by
  show List.Forall₂ _ plist (plist.map rmsDefault)
  induction plist with
  | nil => simp
  | cons p rest ih =>
    refine List.Forall₂.cons ?_ ih
    unfold rmsDefault
    by_cases hp : p.period = none
    · rw [if_pos hp, hp]
      rfl
    · rw [if_neg hp]
      cases hpp : p.period with
      | none => exact absurd hpp hp
      | some v => rfl

theorem edf_post_deadline (plist : List Proc) :
    List.Forall₂ (fun p pc => pc.deadline = some (p.deadline.getD (p.arrival + p.burst)))
      plist (edf_schedule plist).1 := by
  show List.Forall₂ _ plist (plist.map edfDefault)
  induction plist with
  | nil => simp
  | cons p rest ih =>
    refine List.Forall₂.cons ?_ ih
    unfold edfDefault
    by_cases hp : p.deadline = none
    · rw [if_pos hp, hp]
      rfl
    · rw [if_neg hp]
      cases hpp : p.deadline with
      | none => exact absurd hpp hp
      | some v => rfl

end MutationLevel

end PV
namespace PV

/-- C1, counterexample: with the unrecognized algorithm selector
`"NotAnAlgorithm"` the scheduling run does not fail with an
`InvalidAlgorithm` error; it returns a (non-empty) segment sequence. -/
theorem claim1_counterexample :
    startScheduling 1 "NotAnAlgorithm" [⟨some "p1", some 0, some 2, none⟩] none "" =
      some [⟨"p1", 0, 2, 0, 2⟩] := by
  with_unfolding_all rfl

/-- C1, amended: for every input process list and every algorithm selector
string that is not one of the seven recognized kinds, the scheduling run
does not fail; the dispatcher falls through to its final `else` branch and
returns the FCFS schedule of the gathered process list. -/
theorem claim1_fallback_fcfs (fuel : Nat) (alg : String) (rows : List RawRow)
    (qc : Option ℚ) (po : String)
    (h : alg ∉ ["FCFS", "SJF (Non Preemptive)", "SJF (Preemptive)", "Priority Scheduling",
      "RMS", "EDF", "Round Robin"]) :
    startScheduling fuel alg rows qc po = some (fcfs_schedule (buildProcessList alg rows)) := by
  simp only [List.mem_cons, List.not_mem_nil, or_false, not_or] at h
  obtain ⟨h1, h2, h3, h4, h5, h6, h7⟩ := h
  unfold startScheduling
  dsimp only
  rw [if_neg h1, if_neg h2, if_neg h3, if_neg h4, if_neg h5, if_neg h6, if_neg h7]

theorem claim1_fallback_fcfs_witness :
    startScheduling 2 "XYZ" [] none "" = some (fcfs_schedule (buildProcessList "XYZ" [])) :=
  claim1_fallback_fcfs 2 "XYZ" [] none "" (by decide)

/-- C2, counterexample: under FCFS a process whose burst is zero still
contributes a ScheduleSegment (of zero length) to the returned sequence;
it is not silently dropped. -/
theorem claim2_counterexample :
    fcfs_schedule [{ name := "P1", arrival := 0, burst := 0 }] = [⟨"P1", 0, 0, 0, 0⟩] := by
  with_unfolding_all rfl

/-- C2, amended: only the two preemptive policies drop zero/negative-burst
processes.  Every segment returned by SJF-preemptive or Round-Robin echoes
a strictly positive burst, so a process with `burst ≤ 0` contributes no
segment to those schedules; the non-preemptive policies emit one segment
per process regardless of its burst. -/
theorem claim2_preemptive_drop (fuel : Nat) (plist : List Proc) (q : ℚ)
    (post1 post2 : List Proc) (sched1 sched2 : List Seg)
    (h1 : sjf_preemptive_schedule fuel plist = some (post1, sched1))
    (h2 : round_robin_schedule fuel plist q = some (post2, sched2)) :
    (∀ s ∈ sched1, 0 < s.burst) ∧ (∀ s ∈ sched2, 0 < s.burst) :=
  ⟨srtf_positive_bursts h1, rr_positive_bursts h2⟩

theorem claim2_preemptive_drop_witness :
    (∀ s ∈ [(⟨"B", 1, 2, 1, 3⟩ : Seg)], 0 < s.burst) ∧
      (∀ s ∈ [(⟨"B", 1, 2, 1, 2⟩ : Seg), ⟨"B", 1, 2, 2, 3⟩], 0 < s.burst) :=
  claim2_preemptive_drop 10
    [{ name := "A", arrival := 0, burst := 0 }, { name := "B", arrival := 1, burst := 2 }] 1
    [⟨"A", 0, 0, none, none, none, 0, []⟩, ⟨"B", 1, 2, none, none, none, 0, [(1, 3)]⟩]
    [⟨"A", 0, 0, none, none, none, 0, []⟩, ⟨"B", 1, 2, none, none, none, 0, [(1, 2), (2, 3)]⟩]
    [⟨"B", 1, 2, 1, 3⟩] [⟨"B", 1, 2, 1, 2⟩, ⟨"B", 1, 2, 2, 3⟩]
    (by with_unfolding_all rfl) (by with_unfolding_all rfl)

/-- C3, counterexample: SJF-preemptive steps the clock in whole units, so
a process with burst 1/2 is executed for one full unit: its only segment
has duration 1 ≠ 1/2, violating conservation. -/
theorem claim3_counterexample :
    (sjf_preemptive_schedule 2 [{ name := "P1", arrival := 0, burst := 1/2 }]).map Prod.snd =
      some [⟨"P1", 0, 1/2, 0, 1⟩] ∧ ¬ ((1 : ℚ) - 0 = 1/2) := by
  constructor
  · with_unfolding_all rfl
  · norm_num

/-- C3, amended: conservation (for every process, summed segment duration
equals its burst) holds for all seven algorithms when every burst is a
nonnegative integer.  For the single-segment policies it is stated as a
permutation between segment durations and process bursts; for the
preemptive policies as per-process equality on the post-run state (whose
segments are exactly the segments flattened into the returned schedule). -/
theorem claim3_conservation (plist : List Proc) (order : String) (q : ℚ) (fuel : Nat)
    (sched1 sched2 sched3 sched4 : List Seg) (post5 post6 : List Proc) (sched5 sched6 : List Seg)
    (hib : ∀ p ∈ plist, ∃ n : ℕ, p.burst = (n : ℚ))
    (h1 : sjf_non_preemptive_schedule plist = some sched1)
    (h2 : priority_schedule plist order = some sched2)
    (h3 : (rms_schedule plist).2 = some sched3)
    (h4 : (edf_schedule plist).2 = some sched4)
    (h5 : sjf_preemptive_schedule fuel plist = some (post5, sched5))
    (h6 : round_robin_schedule fuel plist q = some (post6, sched6)) :
    ((fcfs_schedule plist).map segDur).Perm (plist.map procDur) ∧
    (sched1.map segDur).Perm (plist.map procDur) ∧
    (sched2.map segDur).Perm (plist.map procDur) ∧
    (sched3.map segDur).Perm (plist.map procDur) ∧
    (sched4.map segDur).Perm (plist.map procDur) ∧
    (∀ p ∈ post5, segSum p.segments = p.burst) ∧
    (∀ p ∈ post6, segSum p.segments = p.burst) := by
  have hb : ∀ p ∈ plist, 0 ≤ p.burst := by
    intro p hp
    obtain ⟨n, hn⟩ := hib p hp
    rw [hn]
    positivity
  exact ⟨fcfs_conservation plist, sjf_np_conservation h1, priority_conservation h2,
    rms_conservation h3, edf_conservation h4, srtf_conservation hib h5, rr_conservation hb h6⟩

theorem claim3_conservation_witness :
    (((fcfs_schedule [{ name := "A", arrival := 0, burst := 2 }, { name := "B", arrival := 1, burst := 1 }]).map segDur).Perm
      ([{ name := "A", arrival := 0, burst := 2 }, { name := "B", arrival := 1, burst := 1 }].map procDur)) ∧
    (([(⟨"A", 0, 2, 0, 2⟩ : Seg), ⟨"B", 1, 1, 2, 3⟩].map segDur).Perm
      ([{ name := "A", arrival := 0, burst := 2 }, { name := "B", arrival := 1, burst := 1 }].map procDur)) ∧
    (([(⟨"A", 0, 2, 0, 2⟩ : Seg), ⟨"B", 1, 1, 2, 3⟩].map segDur).Perm
      ([{ name := "A", arrival := 0, burst := 2 }, { name := "B", arrival := 1, burst := 1 }].map procDur)) ∧
    (([(⟨"A", 0, 2, 0, 2⟩ : Seg), ⟨"B", 1, 1, 2, 3⟩].map segDur).Perm
      ([{ name := "A", arrival := 0, burst := 2 }, { name := "B", arrival := 1, burst := 1 }].map procDur)) ∧
    (([(⟨"A", 0, 2, 0, 2⟩ : Seg), ⟨"B", 1, 1, 2, 3⟩].map segDur).Perm
      ([{ name := "A", arrival := 0, burst := 2 }, { name := "B", arrival := 1, burst := 1 }].map procDur)) ∧
    (∀ p ∈ [(⟨"A", 0, 2, none, none, none, 0, [(0, 2)]⟩ : Proc), ⟨"B", 1, 1, none, none, none, 0, [(2, 3)]⟩],
      segSum p.segments = p.burst) ∧
    (∀ p ∈ [(⟨"A", 0, 2, none, none, none, 0, [(0, 1), (2, 3)]⟩ : Proc), ⟨"B", 1, 1, none, none, none, 0, [(1, 2)]⟩],
      segSum p.segments = p.burst) := by
  refine claim3_conservation
    [{ name := "A", arrival := 0, burst := 2 }, { name := "B", arrival := 1, burst := 1 }]
    "Smaller Priority First" 1 10
    [⟨"A", 0, 2, 0, 2⟩, ⟨"B", 1, 1, 2, 3⟩] [⟨"A", 0, 2, 0, 2⟩, ⟨"B", 1, 1, 2, 3⟩]
    [⟨"A", 0, 2, 0, 2⟩, ⟨"B", 1, 1, 2, 3⟩] [⟨"A", 0, 2, 0, 2⟩, ⟨"B", 1, 1, 2, 3⟩]
    [⟨"A", 0, 2, none, none, none, 0, [(0, 2)]⟩, ⟨"B", 1, 1, none, none, none, 0, [(2, 3)]⟩]
    [⟨"A", 0, 2, none, none, none, 0, [(0, 1), (2, 3)]⟩, ⟨"B", 1, 1, none, none, none, 0, [(1, 2)]⟩]
    [⟨"A", 0, 2, 0, 2⟩, ⟨"B", 1, 1, 2, 3⟩]
    [⟨"A", 0, 2, 0, 1⟩, ⟨"B", 1, 1, 1, 2⟩, ⟨"A", 0, 2, 2, 3⟩]
    ?_ ?_ ?_ ?_ ?_ ?_ ?_
  · intro p hp
    simp only [List.mem_cons, List.not_mem_nil, or_false] at hp
    rcases hp with rfl | rfl
    · exact ⟨2, by norm_num⟩
    · exact ⟨1, by norm_num⟩
  · with_unfolding_all rfl
  · with_unfolding_all rfl
  · with_unfolding_all rfl
  · with_unfolding_all rfl
  · with_unfolding_all rfl
  · with_unfolding_all rfl

end PV
namespace PV

/-- C4, counterexample: a scheduling run is not free of side effects on
its input: running RMS on a process list whose record has no `period` key
leaves the record changed (`period` is now set), so the input process list
is not unchanged after the run. -/
theorem claim4_counterexample :
    (rms_schedule [{ name := "P1", arrival := 0, burst := 2 }]).1 ≠
      [{ name := "P1", arrival := 0, burst := 2 }] := by
  with_unfolding_all decide

/-- C4, amended: the run is deterministic but does mutate its input.
RMS and EDF leave every field except `period` (resp. `deadline`)
unchanged and set that field to its value-or-default `arrival + burst`;
the preemptive policies (SJF-preemptive, Round-Robin) change only the
`remaining`/`segments` scratch fields, preserving every
specification-level field of every input record (Round-Robin on the
arrival-sorted order of the input).  FCFS, SJF non-preemptive and
Priority Scheduling do not write to the input records at all. -/
theorem claim4_mutation (plist : List Proc) (q : ℚ) (fuel : Nat)
    (post5 post6 : List Proc) (sched5 sched6 : List Seg)
    (h5 : sjf_preemptive_schedule fuel plist = some (post5, sched5))
    (h6 : round_robin_schedule fuel plist q = some (post6, sched6)) :
    (((rms_schedule plist).1).map (fun p => (p.name, p.arrival, p.burst, p.priority, p.deadline)) =
      plist.map (fun p => (p.name, p.arrival, p.burst, p.priority, p.deadline))) ∧
    List.Forall₂ (fun p pc => pc.period = some (p.period.getD (p.arrival + p.burst)))
      plist (rms_schedule plist).1 ∧
    (((edf_schedule plist).1).map (fun p => (p.name, p.arrival, p.burst, p.priority, p.period)) =
      plist.map (fun p => (p.name, p.arrival, p.burst, p.priority, p.period))) ∧
    List.Forall₂ (fun p pc => pc.deadline = some (p.deadline.getD (p.arrival + p.burst)))
      plist (edf_schedule plist).1 ∧
    post5.map specOf = plist.map specOf ∧
    post6.map specOf = (pySorted (fun p => p.arrival) plist).map specOf :=
  ⟨rms_post_fields plist, rms_post_period plist, edf_post_fields plist, edf_post_deadline plist,
    srtf_specOf_preserved h5, rr_specOf_preserved h6⟩

theorem claim4_mutation_witness :
    (((rms_schedule [{ name := "A", arrival := 0, burst := 2 }, { name := "B", arrival := 1, burst := 1 }]).1).map
        (fun p => (p.name, p.arrival, p.burst, p.priority, p.deadline)) =
      [({ name := "A", arrival := 0, burst := 2 } : Proc), { name := "B", arrival := 1, burst := 1 }].map
        (fun p => (p.name, p.arrival, p.burst, p.priority, p.deadline))) ∧
    List.Forall₂ (fun p pc => pc.period = some (p.period.getD (p.arrival + p.burst)))
      [({ name := "A", arrival := 0, burst := 2 } : Proc), { name := "B", arrival := 1, burst := 1 }]
      (rms_schedule [{ name := "A", arrival := 0, burst := 2 }, { name := "B", arrival := 1, burst := 1 }]).1 ∧
    (((edf_schedule [{ name := "A", arrival := 0, burst := 2 }, { name := "B", arrival := 1, burst := 1 }]).1).map
        (fun p => (p.name, p.arrival, p.burst, p.priority, p.period)) =
      [({ name := "A", arrival := 0, burst := 2 } : Proc), { name := "B", arrival := 1, burst := 1 }].map
        (fun p => (p.name, p.arrival, p.burst, p.priority, p.period))) ∧
    List.Forall₂ (fun p pc => pc.deadline = some (p.deadline.getD (p.arrival + p.burst)))
      [({ name := "A", arrival := 0, burst := 2 } : Proc), { name := "B", arrival := 1, burst := 1 }]
      (edf_schedule [{ name := "A", arrival := 0, burst := 2 }, { name := "B", arrival := 1, burst := 1 }]).1 ∧
    ([(⟨"A", 0, 2, none, none, none, 0, [(0, 2)]⟩ : Proc), ⟨"B", 1, 1, none, none, none, 0, [(2, 3)]⟩]).map specOf =
      [({ name := "A", arrival := 0, burst := 2 } : Proc), { name := "B", arrival := 1, burst := 1 }].map specOf ∧
    ([(⟨"A", 0, 2, none, none, none, 0, [(0, 1), (2, 3)]⟩ : Proc), ⟨"B", 1, 1, none, none, none, 0, [(1, 2)]⟩]).map specOf =
      (pySorted (fun p => p.arrival)
        [({ name := "A", arrival := 0, burst := 2 } : Proc), { name := "B", arrival := 1, burst := 1 }]).map specOf :=
  claim4_mutation
    [{ name := "A", arrival := 0, burst := 2 }, { name := "B", arrival := 1, burst := 1 }] 1 10
    [⟨"A", 0, 2, none, none, none, 0, [(0, 2)]⟩, ⟨"B", 1, 1, none, none, none, 0, [(2, 3)]⟩]
    [⟨"A", 0, 2, none, none, none, 0, [(0, 1), (2, 3)]⟩, ⟨"B", 1, 1, none, none, none, 0, [(1, 2)]⟩]
    [⟨"A", 0, 2, 0, 2⟩, ⟨"B", 1, 1, 2, 3⟩]
    [⟨"A", 0, 2, 0, 1⟩, ⟨"B", 1, 1, 1, 2⟩, ⟨"A", 0, 2, 2, 3⟩]
    (by with_unfolding_all rfl) (by with_unfolding_all rfl)

/-- C5 (confirmed): the source's SJF-preemptive run coincides, on every
input and fuel, with the spec-modelled SRTF that steps time in exact units
of 1, picks the minimum-remaining available process (ties to the first in
the fixed order), and coalesces a unit into the process's last segment
exactly when that segment's end equals the unit's start and the same
process (by identity) ran the previous unit. -/
theorem claim5_srtf_matches_spec (fuel : Nat) (plist : List Proc) :
    sjf_preemptive_schedule fuel plist = srtf_spec_schedule fuel plist :=
  sjf_preemptive_eq_spec fuel plist

/-- C6, counterexample: with a negative-burst process, FCFS returns
segments that, sorted by start, overlap: the second of the sorted segments
finishes at 4, after the third starts at 3. -/
theorem claim6_counterexample :
    sortByStart (fcfs_schedule [{ name := "P1", arrival := 0, burst := 3 },
      { name := "P2", arrival := 0, burst := -2 }, { name := "P3", arrival := 0, burst := 3 }]) =
      [⟨"P1", 0, 3, 0, 3⟩, ⟨"P3", 0, 3, 1, 4⟩, ⟨"P2", 0, -2, 3, 1⟩] ∧
    ¬ Chrono [⟨"P1", 0, 3, 0, 3⟩, ⟨"P3", 0, 3, 1, 4⟩, ⟨"P2", 0, -2, 3, 1⟩] := by
  constructor
  · with_unfolding_all rfl
  · simp only [Chrono, List.chain'_cons, List.chain'_singleton, and_true]
    intro h
    have := h.2
    norm_num at this

/-- C6, amended: provided every process's burst is nonnegative, no two
returned segments overlap for any of the seven algorithms: sorting all
returned segments by start, each segment's finish is at most the next
segment's start. -/
theorem claim6_no_overlap (plist : List Proc) (order : String) (q : ℚ) (fuel : Nat)
    (sched1 sched2 sched3 sched4 : List Seg) (post5 post6 : List Proc) (sched5 sched6 : List Seg)
    (hb : ∀ p ∈ plist, 0 ≤ p.burst)
    (h1 : sjf_non_preemptive_schedule plist = some sched1)
    (h2 : priority_schedule plist order = some sched2)
    (h3 : (rms_schedule plist).2 = some sched3)
    (h4 : (edf_schedule plist).2 = some sched4)
    (h5 : sjf_preemptive_schedule fuel plist = some (post5, sched5))
    (h6 : round_robin_schedule fuel plist q = some (post6, sched6)) :
    Chrono (sortByStart (fcfs_schedule plist)) ∧
    Chrono (sortByStart sched1) ∧ Chrono (sortByStart sched2) ∧
    Chrono (sortByStart sched3) ∧ Chrono (sortByStart sched4) ∧
    Chrono (sortByStart sched5) ∧ Chrono (sortByStart sched6) := by
  refine ⟨fcfs_no_overlap hb,
    greedy_no_overlap (fun _ _ hx => argminKey_mem hx) hb h1, ?_, ?_, ?_,
    srtf_no_overlap h5, rr_no_overlap h6⟩
  · unfold priority_schedule at h2
    by_cases ho : order = "Smaller Priority First"
    · rw [if_pos ho] at h2
      exact greedy_no_overlap (fun _ _ hx => argminKey_mem hx) hb h2
    · rw [if_neg ho] at h2
      exact greedy_no_overlap (fun _ _ hx => argmaxKey_mem hx) hb h2
  · unfold rms_schedule at h3
    dsimp only at h3
    have hb2 : ∀ p ∈ plist.map rmsDefault, 0 ≤ p.burst := by
      intro p hp
      obtain ⟨r, hr, rfl⟩ := List.mem_map.1 hp
      rw [burst_rmsDefault]
      exact hb r hr
    exact greedy_no_overlap (fun _ _ hx => argminKey_mem hx) hb2 h3
  · unfold edf_schedule at h4
    dsimp only at h4
    have hb2 : ∀ p ∈ pySorted (fun p => p.deadline.getD 0) (plist.map edfDefault), 0 ≤ p.burst := by
      intro p hp
      obtain ⟨r, hr, rfl⟩ := List.mem_map.1 ((pySorted_perm _ _).subset hp)
      rw [burst_edfDefault]
      exact hb r hr
    exact greedy_no_overlap (fun _ _ hx => argminKey_mem hx) hb2 h4

theorem claim6_no_overlap_witness :
    Chrono (sortByStart (fcfs_schedule
      [{ name := "A", arrival := 0, burst := 2 }, { name := "B", arrival := 1, burst := 1 }])) ∧
    Chrono (sortByStart [⟨"A", 0, 2, 0, 2⟩, ⟨"B", 1, 1, 2, 3⟩]) ∧
    Chrono (sortByStart [⟨"A", 0, 2, 0, 2⟩, ⟨"B", 1, 1, 2, 3⟩]) ∧
    Chrono (sortByStart [⟨"A", 0, 2, 0, 2⟩, ⟨"B", 1, 1, 2, 3⟩]) ∧
    Chrono (sortByStart [⟨"A", 0, 2, 0, 2⟩, ⟨"B", 1, 1, 2, 3⟩]) ∧
    Chrono (sortByStart [⟨"A", 0, 2, 0, 2⟩, ⟨"B", 1, 1, 2, 3⟩]) ∧
    Chrono (sortByStart [⟨"A", 0, 2, 0, 1⟩, ⟨"B", 1, 1, 1, 2⟩, ⟨"A", 0, 2, 2, 3⟩]) := by
  refine claim6_no_overlap
    [{ name := "A", arrival := 0, burst := 2 }, { name := "B", arrival := 1, burst := 1 }]
    "Smaller Priority First" 1 10
    [⟨"A", 0, 2, 0, 2⟩, ⟨"B", 1, 1, 2, 3⟩] [⟨"A", 0, 2, 0, 2⟩, ⟨"B", 1, 1, 2, 3⟩]
    [⟨"A", 0, 2, 0, 2⟩, ⟨"B", 1, 1, 2, 3⟩] [⟨"A", 0, 2, 0, 2⟩, ⟨"B", 1, 1, 2, 3⟩]
    [⟨"A", 0, 2, none, none, none, 0, [(0, 2)]⟩, ⟨"B", 1, 1, none, none, none, 0, [(2, 3)]⟩]
    [⟨"A", 0, 2, none, none, none, 0, [(0, 1), (2, 3)]⟩, ⟨"B", 1, 1, none, none, none, 0, [(1, 2)]⟩]
    [⟨"A", 0, 2, 0, 2⟩, ⟨"B", 1, 1, 2, 3⟩]
    [⟨"A", 0, 2, 0, 1⟩, ⟨"B", 1, 1, 1, 2⟩, ⟨"A", 0, 2, 2, 3⟩]
    ?_ ?_ ?_ ?_ ?_ ?_ ?_
  · intro p hp
    simp only [List.mem_cons, List.not_mem_nil, or_false] at hp
    rcases hp with rfl | rfl <;> norm_num
  · with_unfolding_all rfl
  · with_unfolding_all rfl
  · with_unfolding_all rfl
  · with_unfolding_all rfl
  · with_unfolding_all rfl
  · with_unfolding_all rfl

end PV
namespace PV

/-- C7 (confirmed): under Priority Scheduling, RMS or EDF, when the row's
algorithm-specific cell is absent or fails to parse, the built process's
field used by the scheduler (priority, period or deadline respectively)
equals `arrival + burst`; moreover inside RMS/EDF the per-process
defaulting step yields `period`/`deadline` equal to the stored value when
present and to `arrival + burst` otherwise. -/
theorem claim7_extra_default (alg : String) (r : Nat) (row : RawRow)
    (halg : alg = "Priority Scheduling" ∨ alg = "RMS" ∨ alg = "EDF")
    (hbad : row.extra = none ∨ row.extra = some none) :
    extraField alg (buildProcess alg r row) = some (row.arrival.getD 0 + row.burst.getD 0) ∧
    (∀ p : Proc, (rmsDefault p).period = some (p.period.getD (p.arrival + p.burst))) ∧
    (∀ p : Proc, (edfDefault p).deadline = some (p.deadline.getD (p.arrival + p.burst))) := by
  refine ⟨?_, ?_, ?_⟩
  · unfold buildProcess extraField hasExtraColumn
    rcases halg with rfl | rfl | rfl <;> rcases hbad with hb | hb <;> simp [hb]
  · intro p
    unfold rmsDefault
    cases hp : p.period with
    | none => simp
    | some v => simp [hp]
  · intro p
    unfold edfDefault
    cases hp : p.deadline with
    | none => simp
    | some v => simp [hp]

theorem claim7_extra_default_witness :
    (extraField "RMS" (buildProcess "RMS" 0 ⟨some "r1", some 1, some 2, none⟩) =
      some ((some (1 : ℚ)).getD 0 + (some (2 : ℚ)).getD 0) ∧
    (∀ p : Proc, (rmsDefault p).period = some (p.period.getD (p.arrival + p.burst))) ∧
    (∀ p : Proc, (edfDefault p).deadline = some (p.deadline.getD (p.arrival + p.burst)))) :=
  claim7_extra_default "RMS" 0 ⟨some "r1", some 1, some 2, none⟩ (Or.inr (Or.inl rfl)) (Or.inl rfl)

/-- C8 (confirmed): on P1(0,8), P2(1,4), P3(2,9), P4(3,5), SJF
non-preemptive returns exactly [P1:0–8, P2:8–12, P4:12–17, P3:17–26]. -/
theorem claim8_sjf_np_scenario :
    sjf_non_preemptive_schedule
      [{ name := "P1", arrival := 0, burst := 8 }, { name := "P2", arrival := 1, burst := 4 },
       { name := "P3", arrival := 2, burst := 9 }, { name := "P4", arrival := 3, burst := 5 }] =
      some [⟨"P1", 0, 8, 0, 8⟩, ⟨"P2", 1, 4, 8, 12⟩, ⟨"P4", 3, 5, 12, 17⟩, ⟨"P3", 2, 9, 17, 26⟩] := by
  with_unfolding_all rfl

/-- C9 (confirmed): when the supplied quantum is missing/unparseable
(modelled as `none`) or ≤ 0, it is normalized to 1, and the dispatched
Round-Robin run equals the Round-Robin schedule computed with quantum 1. -/
theorem claim9_quantum_normalized (fuel : Nat) (rows : List RawRow) (po : String) (qc : Option ℚ)
    (hbad : qc = none ∨ ∃ v, qc = some v ∧ v ≤ 0) :
    normalizeQuantum qc = 1 ∧
    startScheduling fuel "Round Robin" rows qc po =
      (round_robin_schedule fuel (buildProcessList "Round Robin" rows) 1).map Prod.snd := by
  have hq : normalizeQuantum qc = 1 := by
    rcases hbad with rfl | ⟨v, rfl, hv⟩
    · rfl
    · simp [normalizeQuantum, hv]
  refine ⟨hq, ?_⟩
  unfold startScheduling
  dsimp only
  rw [if_neg (by decide), if_neg (by decide), if_neg (by decide), if_neg (by decide),
    if_neg (by decide), if_neg (by decide), if_pos rfl, hq]

theorem claim9_quantum_normalized_witness :
    normalizeQuantum (some (-1)) = 1 ∧
    startScheduling 2 "Round Robin" [] (some (-1)) "" =
      (round_robin_schedule 2 (buildProcessList "Round Robin" []) 1).map Prod.snd :=
  claim9_quantum_normalized 2 [] "" (some (-1)) (Or.inr ⟨-1, rfl, by norm_num⟩)

/-- C10 (confirmed): for P1(0,5), P2(1,3) with quantum 2, P2 arrives after
the first pass begins (at time 1) but before the scan reaches its position,
and is executed within that same pass: the returned schedule's second
segment is P2 from 2 to 4, before P1's next turn. -/
theorem claim10_rr_scan_eligibility :
    (round_robin_schedule 10 [{ name := "P1", arrival := 0, burst := 5 },
      { name := "P2", arrival := 1, burst := 3 }] 2).map Prod.snd =
      some [⟨"P1", 0, 5, 0, 2⟩, ⟨"P2", 1, 3, 2, 4⟩, ⟨"P1", 0, 5, 4, 6⟩, ⟨"P2", 1, 3, 6, 7⟩,
        ⟨"P1", 0, 5, 7, 8⟩] := by
  with_unfolding_all rfl

end PV
